import Mathlib

/-!
Shallow embedding of `repoze/catalog/catalog.py` (the catalog query engine):
field index state, the adaptive `CatalogFieldIndex.sort`, `unindex_doc`,
the discriminator layer (`CatalogIndex.index_doc`), the keyword index
boolean search, and the `Catalog` planner (`searchResults`, `updateIndex`,
`updateIndexes`, `index_doc`, `unindex_doc`).

BTrees maps are modeled as key-sorted association lists, BTrees integer
sets as sorted duplicate-free lists; Python document ids and indexed
scalar values are integers.
-/

namespace RCat

/-- Lookup in an association list (model of BTree / dict `get`). -/
def aget {κ β : Type} [DecidableEq κ] : List (κ × β) → κ → Option β
  | [], _ => none
  | (k, v) :: rest, key => if key = k then some v else aget rest key

/-- Delete a key from an association list (model of BTree / dict `del`
and `pop`; keys are unique in the modeled maps). -/
def adel {κ β : Type} [DecidableEq κ] : List (κ × β) → κ → List (κ × β)
  | [], _ => []
  | (k, v) :: rest, key => if key = k then rest else (k, v) :: adel rest key

/-- Insert or update a key in a key-sorted association list (BTree insert). -/
def aset {β : Type} : List (Int × β) → Int → β → List (Int × β)
  | [], key, v => [(key, v)]
  | (k, w) :: rest, key, v =>
    if key < k then (key, v) :: (k, w) :: rest
    else if key = k then (key, v) :: rest
    else (k, w) :: aset rest key v

/-- Insert into a sorted integer set (model of `IF.Set.insert`). -/
def sinsert : List Int → Int → List Int
  | [], x => [x]
  | y :: ys, x =>
    if x < y then x :: y :: ys
    else if x = y then y :: ys
    else y :: sinsert ys x

/-- `CatalogFieldIndex` state: forward index (value to set of docids, key
sorted ascending), reverse index (docid to value), and the `_num_docs`
counter. -/
structure FieldState where
  fwd : List (Int × List Int)
  rev : List (Int × Int)
  numDocs : Int
deriving Repr, DecidableEq

/-- The empty field index. -/
def emptyField : FieldState := ⟨[], [], 0⟩

/-- `CatalogFieldIndex.unindex_doc` (source lines 184-206).  A missing
forward bucket, or a bucket not containing the docid, raises `KeyError`
inside the `try`, which is caught and tolerated (`set` is rebound to the
truthy `1`, so no bucket is deleted); the reverse entry is still deleted
and the counter still decremented. -/
def unindex_doc (s : FieldState) (docid : Int) : FieldState :=
  match aget s.rev docid with
  | none => s
  | some value =>
    let rev1 := adel s.rev docid
    match aget s.fwd value with
    | none =>
      { fwd := s.fwd, rev := rev1, numDocs := s.numDocs - 1 }
    | some bucket =>
      if docid ∈ bucket then
        let b1 := bucket.erase docid
        if b1.isEmpty then
          { fwd := adel s.fwd value, rev := rev1, numDocs := s.numDocs - 1 }
        else
          { fwd := aset s.fwd value b1, rev := rev1, numDocs := s.numDocs - 1 }
      else
        { fwd := s.fwd, rev := rev1, numDocs := s.numDocs - 1 }

/-- Insert a docid into the forward bucket of a value, creating the
bucket if absent (spec 4.2). -/
def addToBucket (fwd : List (Int × List Int)) (v : Int) (d : Int) :
    List (Int × List Int) :=
  match aget fwd v with
  | none => aset fwd v [d]
  | some b => aset fwd v (sinsert b d)

/-- Remove a docid from the forward bucket of a value, pruning the
bucket entirely if it becomes empty (spec 4.2; a missing bucket is left
alone). -/
def delFromBucket (fwd : List (Int × List Int)) (v : Int) (d : Int) :
    List (Int × List Int) :=
  match aget fwd v with
  | none => fwd
  | some b =>
    let b1 := b.erase d
    if b1.isEmpty then adel fwd v else aset fwd v b1

/-- Modelled from the spec: the underlying field-index insertion routine
(`zope.index.field.FieldIndex.index_doc`, inherited by
`CatalogFieldIndex`, is not part of this repository's source).  Spec 4.2:
if the id already has a value in ReverseIndex, first remove it from
ForwardIndex's corresponding set (pruning the bucket entirely if it
becomes empty), count unchanged; insert the id into `forward[new_value]`
(creating the bucket if absent) and set `reverse[id] = new_value`; if the
id was not previously present, increment DocCount. -/
def base_index_doc (s : FieldState) (docid : Int) (v : Int) : FieldState :=
  match aget s.rev docid with
  | some vold =>
    { fwd := addToBucket (delFromBucket s.fwd vold docid) v docid,
      rev := aset s.rev docid v, numDocs := s.numDocs }
  | none =>
    { fwd := addToBucket s.fwd v docid,
      rev := aset s.rev docid v, numDocs := s.numDocs + 1 }

/-- Outcome of applying a discriminator to a document: the sentinel
`_marker` (no value), a store-managed `Persistent` object, or a plain
scalar value. -/
inductive DiscVal where
  | marker
  | persistent
  | val (v : Int)
deriving Repr, DecidableEq

/-- `CatalogIndex.index_doc` (source lines 59-74), specialized to the
field index.  The discriminator application (callable with the sentinel
default, or `getattr` with the sentinel default) is modeled as one
function from the document to `DiscVal`.  Returns the state after the
call together with the raised error, if any; on a raise the state is
returned unchanged, as the source mutates nothing before raising. -/
def index_doc {α : Type} (disc : α → DiscVal) (s : FieldState) (docid : Int)
    (object : α) : FieldState × Option String :=
  match disc object with
  | .marker => (unindex_doc s docid, none)
  | .persistent => (s, some "ValueError: persistent")
  | .val v => (base_index_doc s docid v, none)

/-! ## The adaptive sort (`CatalogFieldIndex.sort`, source lines 84-182) -/

/-- `bisect.insort` (insort right): insert `e` before the first element
strictly greater than it under the boolean total preorder `le`. -/
def insortR {α : Type} (le : α → α → Bool) : List α → α → List α
  | [], e => [e]
  | x :: xs, e => if le x e then x :: insortR le xs e else e :: x :: xs

/-- Python's stable `sorted` under a boolean total preorder, realized as
an insertion sort (stable: equal elements keep their original order). -/
def pySorted {α : Type} (le : α → α → Bool) (l : List α) : List α :=
  l.foldl (insortR le) []

/-- Python 2 comparison of sort keys `rev_index.get(docid)`: `None`
(docid absent from the index) sorts before every value. -/
def okeyLe : Option Int → Option Int → Bool
  | none, _ => true
  | some _, none => false
  | some a, some b => a ≤ b

/-- Python tuple comparison on `(value, docid)` pairs (lexicographic). -/
def pairLe (a b : Int × Int) : Bool :=
  a.1 < b.1 || (a.1 = b.1 && a.2 ≤ b.2)

/-- One element of the lazy sequence produced by `sort`: a document id,
or the `StopIteration` class object itself, yielded as a value by the
buggy line 139 (`yield StopIteration`). -/
inductive Emit where
  | id (d : Int)
  | stopExc
deriving Repr, DecidableEq

/-- Full exhaustion of the lazy sequence produced by `sort`: the emitted
elements in order, and the exception (if any) raised by the pull that
follows the last emitted element.  `raise StopIteration` inside a Python 2
generator is normal exhaustion (`err = none`). -/
structure SortRes where
  emitted : List Emit
  err : Option String
deriving Repr, DecidableEq

/-- `if limit and n >= limit` (the emission counter test; `limit` is
either absent or at least 1 here). -/
def hitLimit : Option Nat → Nat → Bool
  | some l, n => l ≤ n
  | none, _ => false

/-- `islice(it, 0, limit)`: the first `limit` elements (all of them when
`limit` is `None`). -/
def takeOpt {α : Type} : Option Nat → List α → List α
  | some k, l => l.take k
  | none, l => l

/-- What remains of the iterator after `islice(it, 0, limit)`: with
`limit = None` the slice consumed the whole iterator. -/
def dropOpt {α : Type} : Option Nat → List α → List α
  | some k, l => l.drop k
  | none, _ => []

/-- The inlined `heapq.nsmallest` replacement loop (source lines 143-148):
`result` is kept sorted; each further element below the largest kept one
is insorted and the largest popped. -/
def nbLoop : List (Int × Int) → List (Int × Int) → List (Int × Int)
  | result, [] => result
  | result, e :: rest =>
    match result.getLast? with
    | none => result
    | some los =>
      if pairLe los e then nbLoop result rest
      else nbLoop ((insortR pairLe result e).dropLast) rest

/-- The full-sort emission loop (source lines 174-182): walk the sorted
candidate ids, skip those absent from the reverse index, stop (raise
`StopIteration`) as soon as the counter reaches the limit. -/
def fullEmit (rev : List (Int × Int)) (limitN : Option Nat) :
    Nat → List Int → List Int
  | _, [] => []
  | n, d :: ds =>
    match aget rev d with
    | none => fullEmit rev limitN n ds
    | some _ =>
      if hitLimit limitN n then [] else d :: fullEmit rev limitN (n + 1) ds

/-- Emission of one intersected bucket in the lazy-ascending strategy
(inner loop of source lines 163-169): returns the emitted ids and the
updated counter, or `none` for the counter when `StopIteration` was
raised because the limit was reached. -/
def bucketEmit (limitN : Option Nat) : Nat → List Int → List Int × Option Nat
  | n, [] => ([], some n)
  | n, d :: ds =>
    if hitLimit limitN n then ([], none)
    else
      let r := bucketEmit limitN (n + 1) ds
      (d :: r.1, r.2)

/-- The lazy-ascending strategy (source lines 162-169): walk the forward
index buckets in ascending value order, intersect each with the candidate
set, emit, stop at the limit. -/
def lazyEmit (docids : List Int) (limitN : Option Nat) :
    Nat → List (Int × List Int) → List Int
  | _, [] => []
  | n, (_, b) :: rest =>
    match bucketEmit limitN n (b.filter (fun d => d ∈ docids)) with
    | (out, some n1) => out ++ lazyEmit docids limitN n1 rest
    | (out, none) => out

/-- Body of `CatalogFieldIndex.sort` after limit validation (source
lines 90-182).  `limitN` is the validated limit.  `heapq.nlargest` is a
library call, modeled by its documented semantics (the `limit` largest
elements, sorted descending, ties by tuple comparison); called with a
`None` count (line 131 when no limit was given) the C implementation
parses the count as an integer and raises `TypeError: an integer is
required` on the first pull, before anything is emitted.  The inlined
`heapq.nsmallest` loop of lines 135-150 is embedded literally, including
the `yield StopIteration` followed by the `IndexError` from `result[-1]`
when the sorted slice is empty. -/
def fieldSortMain (s : FieldState) (useLazyOv useNbestOv : Bool)
    (docids : List Int) (reverse : Bool) (limitN : Option Nat) : SortRes :=
  if docids.isEmpty then ⟨[], none⟩
  else if s.numDocs = 0 then ⟨[], none⟩
  else
    let rlen : Nat := docids.length
    let use_lazy :=
      decide ((rlen : Int) > s.numDocs * (((rlen / 100 : Nat) : Int) + 1)) || useLazyOv
    let use_nbest :=
      (match limitN with
       | some l => decide (l * 4 < rlen)
       | none => false) || useNbestOv
    if use_nbest then
      let pairs := docids.filterMap (fun d => (aget s.rev d).map (fun v => (v, d)))
      if reverse then
        match limitN with
        | none => ⟨[], some "TypeError: an integer is required"⟩
        | some k =>
          ⟨((pySorted (fun a b => pairLe b a) pairs).take k).map
            (fun p => .id p.2), none⟩
      else
        let result := pySorted pairLe (takeOpt limitN pairs)
        if result.isEmpty then ⟨[.stopExc], some "IndexError"⟩
        else ⟨(nbLoop result (dropOpt limitN pairs)).map (fun p => .id p.2), none⟩
    else if use_lazy && !reverse then
      ⟨(lazyEmit docids limitN 0 s.fwd).map .id, none⟩
    else
      let sortedIds :=
        if reverse then pySorted (fun a b => okeyLe (aget s.rev b) (aget s.rev a)) docids
        else pySorted (fun a b => okeyLe (aget s.rev a) (aget s.rev b)) docids
      ⟨(fullEmit s.rev limitN 0 sortedIds).map .id, none⟩

/-- `CatalogFieldIndex.sort` (source lines 84-182): validate the limit
(`ValueError` when below 1 — raised on the first pull, the function being
a generator), then run the strategy chosen by the heuristics or the
test-only overrides of lines 108-111. -/
def fieldSort (s : FieldState) (useLazyOv useNbestOv : Bool) (docids : List Int)
    (reverse : Bool) (limit : Option Int) : SortRes :=
  match limit with
  | some l =>
    if l < 1 then ⟨[], some "ValueError: limit must be 1 or greater"⟩
    else fieldSortMain s useLazyOv useNbestOv docids reverse (some l.toNat)
  | none => fieldSortMain s useLazyOv useNbestOv docids reverse none

/-! ## Keyword index (`CatalogKeywordIndex`, source lines 209-248) -/

/-- Keyword index forward map: term to posting set (sorted `IF.Set`). -/
abbrev KwState := List (String × List Int)

/-- `IF.intersection` of two sets (the result carries the order of the
first argument, which is sorted). -/
def interSet (a b : List Int) : List Int := a.filter (fun x => x ∈ b)

/-- `IF.union` of two sorted sets: sorted duplicate-free merge. -/
def unionSet : List Int → List Int → List Int
  | [], b => b
  | a, [] => a
  | x :: xs, y :: ys =>
    if x < y then x :: unionSet xs (y :: ys)
    else if y < x then y :: unionSet (x :: xs) ys
    else x :: unionSet xs ys
termination_by a b => a.length + b.length

/-- The two combinators selectable by the `operator` argument. -/
inductive KwOp where
  | and
  | or
deriving Repr, DecidableEq

/-- `{'and': IF.intersection, 'or': IF.union}[operator]`. -/
def kwCombine : KwOp → List Int → List Int → List Int
  | .and, a, b => interSet a b
  | .or, a, b => unionSet a b

/-- A keyword query: one term (a bare string) or a sequence of terms. -/
inductive KwQ where
  | str (s : String)
  | terms (l : List String)
deriving Repr, DecidableEq

/-- One iteration of the search loop (source lines 241-243): fetch the
word's posting set (`IF.Set()` when absent) and combine it with the
running result (`f(None, x)` is `x` in BTrees, so the first word seeds
the running result). -/
def kwStep (fwd : KwState) (op : KwOp) (rs : Option (List Int)) (word : String) :
    Option (List Int) :=
  let docids := (aget fwd word).getD []
  match rs with
  | none => some docids
  | some r => some (kwCombine op r docids)

/-- The body of `CatalogKeywordIndex.search` (source lines 231-248) after
the operator has been resolved: normalize a bare string to a one-term
list, fold the posting sets, return the final set, or a fresh empty set
when the running result is falsy (`None` or empty). -/
def kwSearch (fwd : KwState) (query : KwQ) (op : KwOp) : List Int :=
  let terms := match query with
    | .str s => [s]
    | .terms l => l
  let rs := terms.foldl (kwStep fwd op) none
  match rs with
  | none => []
  | some r => if r.isEmpty then [] else r

/-- `CatalogKeywordIndex.search` with its operator-name lookup: an
operator other than `and` / `or` raises `KeyError`. -/
def kwSearchOp (fwd : KwState) (query : KwQ) (operator : String) :
    Except String (List Int) :=
  if operator = "and" then .ok (kwSearch fwd query .and)
  else if operator = "or" then .ok (kwSearch fwd query .or)
  else .error "KeyError: operator"

/-- Argument of `CatalogKeywordIndex.apply`: either a dict (whose values
are strings or term lists) or a raw query. -/
inductive KwQuery where
  | dict (entries : List (String × KwQ))
  | plain (q : KwQ)
deriving Repr, DecidableEq

/-- `CatalogKeywordIndex.apply` (source lines 213-219).  Returns the
index state after the call, the caller's query object after the call
(`query.pop('operator')` mutates the caller's dict), and the search
result or the raised error.  The dict's `'query'` value missing raises
`KeyError`; a non-string `'operator'` value raises when used as a dict
key. -/
def kwApply (st : KwState) (query : KwQuery) :
    KwState × KwQuery × Except String (List Int) :=
  match query with
  | .plain q => (st, query, kwSearchOp st q "and")
  | .dict entries =>
    match aget entries "operator" with
    | none =>
      match aget entries "query" with
      | none => (st, .dict entries, .error "KeyError: query")
      | some qv => (st, .dict entries, kwSearchOp st qv "and")
    | some opv =>
      let entries1 := adel entries "operator"
      match opv with
      | .terms _ => (st, .dict entries1, .error "TypeError: unhashable operator")
      | .str o =>
        match aget entries1 "query" with
        | none => (st, .dict entries1, .error "KeyError: query")
        | some qv => (st, .dict entries1, kwSearchOp st qv o)

/-! ## Catalog (source lines 250-347) -/

/-- A document id as supplied by a caller: a Python integer, or a value
of any other type (carrying its repr). -/
inductive PyId where
  | int (n : Int)
  | other (r : String)
deriving Repr, DecidableEq

/-- `assertint` (source lines 344-347). -/
def assertint : PyId → Option String
  | .int _ => none
  | .other r => some ("ValueError: " ++ r ++ " is not an integer value")

/-- One registered index, seen by the catalog: its discriminator
(documents are modeled as already carrying their discriminated outcome,
the discriminator being an arbitrary function on them), its field-index
state (mutated by `index_doc` and used by `sort`), its `apply` behavior
on sub-queries (opaque to the planner, sub-queries modeled as integers),
and the test-only sort overrides. -/
structure CatIdx where
  disc : DiscVal → DiscVal
  st : FieldState
  app : Int → Option (List Int)
  useLazy : Bool
  useNbest : Bool

/-- The catalog: a registry mapping names to indexes. -/
abbrev Catalog := List (String × CatIdx)

/-- `for index in self.values(): index.index_doc(docid, obj)` — an error
from one index propagates, leaving the catalog partially updated. -/
def catIndexDocLoop : Catalog → Int → DiscVal → Catalog × Option String
  | [], _, _ => ([], none)
  | (nm, idx) :: rest, docid, obj =>
    match index_doc idx.disc idx.st docid obj with
    | (st1, none) =>
      let r := catIndexDocLoop rest docid obj
      ((nm, { idx with st := st1 }) :: r.1, r.2)
    | (st1, some e) => ((nm, { idx with st := st1 }) :: rest, some e)

/-- `Catalog.index_doc` (source lines 265-269): `assertint(docid)`, then
forward to every registered index. -/
def catalog_index_doc (cat : Catalog) (docid : PyId) (obj : DiscVal) :
    Catalog × Option String :=
  match assertint docid with
  | some e => (cat, some e)
  | none =>
    match docid with
    | .int n => catIndexDocLoop cat n obj
    | .other _ => (cat, none)

/-- `for index in self.values(): index.unindex_doc(docid)`. -/
def catUnindexLoop : Catalog → Int → Catalog
  | [], _ => []
  | (nm, idx) :: rest, docid =>
    (nm, { idx with st := unindex_doc idx.st docid }) :: catUnindexLoop rest docid

/-- `Catalog.unindex_doc` (source lines 271-275). -/
def catalog_unindex_doc (cat : Catalog) (docid : PyId) : Catalog × Option String :=
  match assertint docid with
  | some e => (cat, some e)
  | none =>
    match docid with
    | .int n => (catUnindexLoop cat n, none)
    | .other _ => (cat, none)

/-- The item loop of `Catalog.updateIndex` (source lines 286-288): each
id is validated by `assertint` immediately before that item is indexed;
an error stops the loop, keeping the state reached so far. -/
def updIdxLoop (disc : DiscVal → DiscVal) :
    FieldState → List (PyId × DiscVal) → FieldState × Option String
  | st, [] => (st, none)
  | st, (did, obj) :: rest =>
    match assertint did with
    | some e => (st, some e)
    | none =>
      match did with
      | .other _ => (st, none)
      | .int n =>
        match index_doc disc st n obj with
        | (st1, none) => updIdxLoop disc st1 rest
        | (st1, some e) => (st1, some e)

/-- Replace the state of the named index (the source mutates it in
place). -/
def setIdxSt : Catalog → String → FieldState → Catalog
  | [], _, _ => []
  | (nm, idx) :: rest, name, st1 =>
    if nm = name then (nm, { idx with st := st1 }) :: rest
    else (nm, idx) :: setIdxSt rest name st1

/-- `Catalog.updateIndex` (source lines 284-288): look the index up
(`KeyError` if absent), then run the item loop. -/
def updateIndex (cat : Catalog) (name : String) (items : List (PyId × DiscVal)) :
    Catalog × Option String :=
  match aget cat name with
  | none => (cat, some ("KeyError: " ++ name))
  | some idx =>
    let r := updIdxLoop idx.disc idx.st items
    (setIdxSt cat name r.1, r.2)

/-- `Catalog.updateIndexes` (source lines 290-294): for each item,
`assertint` then every index's `index_doc`; an error stops the loop,
keeping the partially updated catalog. -/
def updateIndexes : Catalog → List (PyId × DiscVal) → Catalog × Option String
  | cat, [] => (cat, none)
  | cat, (did, obj) :: rest =>
    match assertint did with
    | some e => (cat, some e)
    | none =>
      match did with
      | .other _ => (cat, none)
      | .int n =>
        match catIndexDocLoop cat n obj with
        | (cat1, none) => updateIndexes cat1 rest
        | (cat1, some e) => (cat1, some e)

/-- The value returned by `searchResults` next to the count: the plain
intersected set (the `return 0, ()` of line 322 is the empty set), or
the lazy sequence produced by the sort index. -/
inductive SRPayload where
  | set (l : List Int)
  | sortedSeq (r : SortRes)
deriving Repr, DecidableEq

/-- The per-index loop of `Catalog.searchResults` (source lines 307-318):
look up each named index (`ValueError` if absent), apply it, skip a
`None` result, short-circuit on an empty result (`Sum.inl`), otherwise
collect the `(len(r), r)` pairs (`Sum.inr`). -/
def srLoop (cat : Catalog) :
    List (String × Int) → Except String (Sum (List Int) (List (Nat × List Int)))
  | [] => .ok (.inr [])
  | (name, sq) :: rest =>
    match aget cat name with
    | none => .error ("ValueError: No such index " ++ name)
    | some idx =>
      match idx.app sq with
      | none => srLoop cat rest
      | some r =>
        if r.isEmpty then .ok (.inl r)
        else
          match srLoop cat rest with
          | .error e => .error e
          | .ok (.inl rr) => .ok (.inl rr)
          | .ok (.inr rs) => .ok (.inr ((r.length, r) :: rs))

/-- `weightedIntersection` fold of source lines 326-328; the weight is
discarded, only the set is kept. -/
def weightedFold : List Int → List (List Int) → List Int
  | result, [] => result
  | result, r :: rest => weightedFold (interSet result r) rest

/-- `Catalog.searchResults` (source lines 296-339).  The reserved keys
`sort_index` / `reverse` / `limit` are modeled as separate parameters
(the source pops them from the kwargs dict before dispatch); the
remaining query is an association from index name to sub-query.
`results.sort()` is modeled as a stable sort on the lengths (ties among
equal-length pairs are ordered arbitrarily by CPython's fallback object
comparison; the stable-by-length choice is one such order). -/
def searchResults (cat : Catalog) (query : List (String × Int))
    (sortIndex : Option String) (reverse : Bool) (limit : Option Int) :
    Except String (Int × SRPayload) :=
  match srLoop cat query with
  | .error e => .error e
  | .ok (.inl r) => .ok (0, .set r)
  | .ok (.inr results) =>
    if results.isEmpty then .ok (0, .set [])
    else
      match pySorted (fun a b => decide (a.1 ≤ b.1)) results with
      | [] => .ok (0, .set [])
      | (_, r0) :: rest =>
        let result := weightedFold r0 (rest.map (fun p => p.2))
        let numdocs : Int := result.length
        match sortIndex with
        | some nm =>
          match aget cat nm with
          | none => .error ("KeyError: " ++ nm)
          | some idx =>
            .ok (match limit with
                 | none => numdocs
                 | some l => min numdocs l,
                 .sortedSeq (fieldSort idx.st idx.useLazy idx.useNbest result reverse limit))
        | none =>
          .ok (match limit with
               | none => numdocs
               | some l => min numdocs l,
               .set result)

/-! ## Specification-side definitions and invariants -/

/-- The sort contract as the spec words it (spec 4.3 / 8, refinement
reference): the candidate ids that are present in the reverse index,
ordered by their indexed value (ascending, or descending when `reverse`;
ties broken deterministically by docid), truncated to the limit. -/
def canonicalSort (s : FieldState) (docids : List Int) (reverse : Bool)
    (limitN : Option Nat) : List Int :=
  let pairs := docids.filterMap (fun d => (aget s.rev d).map (fun v => (v, d)))
  let sortedPairs :=
    if reverse then pySorted (fun a b => pairLe b a) pairs
    else pySorted pairLe pairs
  (takeOpt limitN sortedPairs).map (fun p => p.2)

/-- The keyword search contract as the spec words it (spec 4.4,
refinement reference): the first term seeds the running result to
exactly its posting set regardless of operator, later terms are folded
in with the selected combinator, an unknown term contributes the empty
set, and an empty query yields the empty set. -/
def kwSearchSpec (fwd : KwState) (terms : List String) (op : KwOp) : List Int :=
  match terms with
  | [] => []
  | w :: ws =>
    ws.foldl (fun r t => kwCombine op r ((aget fwd t).getD [])) ((aget fwd w).getD [])

/-- One call in a field-index call sequence. -/
inductive FOp where
  | index (docid : Int) (dv : DiscVal)
  | unindex (docid : Int)

/-- Run a sequence of `index_doc` / `unindex_doc` calls on a field index
(documents modeled as carrying their discriminated outcome; an
`index_doc` that raises has mutated nothing, so the run continues from
the unchanged state). -/
def runOps : FieldState → List FOp → FieldState
  | s, [] => s
  | s, .index d dv :: rest => runOps (index_doc (fun x => x) s d dv).1 rest
  | s, .unindex d :: rest => runOps (unindex_doc s d) rest

/-- Keys of a modeled BTree map are strictly increasing. -/
def SortedKeys {β : Type} (l : List (Int × β)) : Prop :=
  l.Pairwise (fun a b => a.1 < b.1)

/-- Structural well-formedness of a field index: both BTrees are
key-sorted and every forward bucket is a sorted non-empty set. -/
def WFS (s : FieldState) : Prop :=
  SortedKeys s.fwd ∧ SortedKeys s.rev ∧
  (∀ p ∈ s.fwd, p.2.Pairwise (fun a b : Int => a < b) ∧ p.2 ≠ [])

/-- Every member of a forward bucket has that bucket's value as its
reverse entry. -/
def ConsFwd (s : FieldState) : Prop :=
  ∀ p ∈ s.fwd, ∀ d ∈ p.2, aget s.rev d = some p.1

/-- Every id present in the reverse index is a member of the forward
bucket of its value: `id ∈ forward[reverse[id]]` (spec 8). -/
def ConsRev (s : FieldState) : Prop :=
  ∀ q ∈ s.rev, ∃ p ∈ s.fwd, p.1 = q.2 ∧ q.1 ∈ p.2

/-- The `_num_docs` counter equals the number of reverse entries. -/
def CountOK (s : FieldState) : Prop :=
  s.numDocs = (s.rev.length : Int)

/-- The invariant claimed for all call sequences (spec 8). -/
def Inv (s : FieldState) : Prop :=
  ConsRev s ∧ CountOK s

/-- No two candidate ids that are present in the index share an indexed
value. -/
def DistinctValues (s : FieldState) (docids : List Int) : Prop :=
  ∀ a ∈ docids, ∀ b ∈ docids,
    (aget s.rev a).isSome → aget s.rev a = aget s.rev b → a = b

/-- Concatenation of every forward bucket intersected with the candidate
set, in forward (ascending value) order: the full output of the
lazy-ascending strategy before limit truncation. -/
def allIsect (docids : List Int) : List (Int × List Int) → List Int
  | [] => []
  | (_, b) :: rest => b.filter (fun d => d ∈ docids) ++ allIsect docids rest

/-- The `(value, docid)` pairs of the candidates present in the reverse
index, in candidate order (the `nsort` generator of source lines
120-124). -/
def presentPairs (s : FieldState) (docids : List Int) : List (Int × Int) :=
  docids.filterMap (fun d => (aget s.rev d).map (fun v => (v, d)))

/-- The candidate ids present in the reverse index, in candidate order. -/
def presentIds (s : FieldState) (docids : List Int) : List Int :=
  docids.filter (fun d => (aget s.rev d).isSome)

/-- The indexed value of a document id (`0` for an absent id; only used
on present ids). -/
def keyval (s : FieldState) (d : Int) : Int :=
  (aget s.rev d).getD 0

instance {β : Type} (l : List (Int × β)) : Decidable (SortedKeys l) := by
  unfold SortedKeys
  infer_instance

instance (s : FieldState) : Decidable (WFS s) := by
  unfold WFS
  infer_instance

instance (s : FieldState) : Decidable (ConsFwd s) := by
  unfold ConsFwd
  infer_instance

instance (s : FieldState) : Decidable (ConsRev s) := by
  unfold ConsRev
  infer_instance

instance (s : FieldState) : Decidable (CountOK s) := by
  unfold CountOK
  infer_instance

instance (s : FieldState) (docids : List Int) : Decidable (DistinctValues s docids) := by
  unfold DistinctValues
  infer_instance

/-! ## Concrete states used as witnesses and counterexamples -/

/-- Spec Example 1 index: documents `{1: "b", 2: "a", 3: "c"}` with the
three values coded as `2 < 1 < 3` standing for `b`, `a`, `c`. -/
def exIdx : FieldState := ⟨[(1, [2]), (2, [1]), (3, [3])], [(1, 2), (2, 1), (3, 3)], 3⟩

/-- An index holding one document `1` with value `0`. -/
def bugIdx : FieldState := ⟨[(0, [1])], [(1, 0)], 1⟩

/-- An index holding two documents `1`, `2` with the same value `0`. -/
def tieIdx : FieldState := ⟨[(0, [1, 2])], [(1, 0), (2, 0)], 2⟩

/-- An empty field index registered in a catalog, identity
discriminator, inapplicable to sub-queries. -/
def cidx0 : CatIdx := ⟨fun d => d, emptyField, fun _ => none, false, false⟩

/-- A registered index whose `apply` selects `{1, 2, 3}`. -/
def qidxA : CatIdx := ⟨fun d => d, emptyField, fun _ => some [1, 2, 3], false, false⟩

/-- A registered index whose `apply` selects `{2, 3, 4}`. -/
def qidxB : CatIdx := ⟨fun d => d, emptyField, fun _ => some [2, 3, 4], false, false⟩

/-- A registered index whose `apply` selects the empty set. -/
def qidxE : CatIdx := ⟨fun d => d, emptyField, fun _ => some [], false, false⟩

/-- An inconsistent field index: document `1` has a reverse entry with
value `0`, but no forward bucket for `0` exists. -/
def inconsIdx : FieldState := ⟨[], [(1, 0)], 1⟩

/-- Every sub-query key of a `searchResults` call names a registered
index (so line 311's `ValueError` is unreachable). -/
def validNames (cat : Catalog) (query : List (String × Int)) : Prop :=
  ∀ p ∈ query, (aget cat p.1).isSome

instance (cat : Catalog) (query : List (String × Int)) :
    Decidable (validNames cat query) := by
  unfold validNames
  infer_instance

/-- Every result an index's `apply` can produce is a sorted IF set. -/
def SortedApps (cat : Catalog) : Prop :=
  ∀ p ∈ cat, ∀ q r, p.2.app q = some r → r.Pairwise (fun a b : Int => a < b)

/-- Some sub-query of the call produces an (applicable) empty result, so
the short-circuit of source line 317 fires in every evaluation order. -/
def hasEmptyRes (cat : Catalog) (query : List (String × Int)) : Prop :=
  ∃ p ∈ query, ∃ idx, aget cat p.1 = some idx ∧ idx.app p.2 = some []

/-- The `(len(r), r)` pairs `searchResults` collects when no sub-query
result is `None` absent and none is empty. -/
def collected (cat : Catalog) (query : List (String × Int)) :
    List (Nat × List Int) :=
  query.filterMap (fun p => match aget cat p.1 with
    | some idx => (idx.app p.2).map (fun r => (r.length, r))
    | none => none)

/-! ## Theorems -/

/-- Deleting a found key shortens an association list by one. -/
theorem aget_adel_length {κ β : Type} [DecidableEq κ] :
    ∀ (l : List (κ × β)) (k : κ) (v : β), aget l k = some v →
      (adel l k).length + 1 = l.length := by
  intro l k v
  induction l with
  | nil => intro h; simp [aget] at h
  | cons p rest ih =>
    obtain ⟨a, b⟩ := p
    intro h
    by_cases hk : k = a
    · simp [adel, hk]
    · simp only [aget, if_neg hk] at h
      simp [adel, hk, ih h]

/-- `if r.isEmpty then [] else r` is `r` as a value. -/
theorem ite_isEmpty_self (r : List Int) :
    (if r.isEmpty then ([] : List Int) else r) = r := by
  cases r <;> simp

/-- C7: for every index state, indexing a document whose discriminated
value is a store-managed persistent object reference fails with the
`InvalidValue` error (`ValueError` on a `Persistent` value) and leaves
the index state exactly as it was before the call. -/
theorem c7_persistent_value_invalid {α : Type} (disc : α → DiscVal) (s : FieldState)
    (docid : Int) (object : α) (h : disc object = .persistent) :
    index_doc disc s docid object = (s, some "ValueError: persistent") := by
  unfold index_doc
  rw [h]

/-- Witness for C7 at a concrete discriminator, state and document. -/
theorem c7_witness :
    (fun _ : Unit => DiscVal.persistent) () = DiscVal.persistent ∧
    index_doc (fun _ : Unit => DiscVal.persistent) bugIdx 7 () =
      (bugIdx, some "ValueError: persistent") :=
  ⟨rfl, c7_persistent_value_invalid (fun _ : Unit => DiscVal.persistent) bugIdx 7 () rfl⟩

/-- C2: against the claim, the n-best ascending path with no candidate
present in the index does not emit nothing: on the index holding only
document `1`, sorting candidates `[5,6,7,8,9]` with `limit=1` (which
selects n-best by the natural heuristic) yields the `StopIteration`
class object as an element (line 139 `yield StopIteration`) and raises
`IndexError` (`result[-1]` on an empty list) on the following pull. -/
theorem c2_nbest_ascending_yields_marker :
    fieldSort bugIdx false false [5, 6, 7, 8, 9] false (some 1) =
      ⟨[.stopExc], some "IndexError"⟩ := by decide

/-- C9: `CatalogKeywordIndex.apply` on a dict query containing an
`'operator'` key returns with the caller's dict mutated in place by
removing exactly that key, and with the index state unchanged. -/
theorem c9_apply_pops_operator (st : KwState) (entries : List (String × KwQ))
    (h : (aget entries "operator").isSome) :
    (kwApply st (.dict entries)).1 = st ∧
    (kwApply st (.dict entries)).2.1 = KwQuery.dict (adel entries "operator") := by
  rcases hop : aget entries "operator" with _ | opv
  · rw [hop] at h; exact absurd h (by simp)
  · cases opv with
    | terms l => simp [kwApply, hop]
    | str o =>
      simp only [kwApply, hop]
      rcases aget (adel entries "operator") "query" with _ | qv <;> simp

/-- Witness for C9 at a concrete keyword index and dict query. -/
theorem c9_witness :
    (aget [("operator", KwQ.str "or"), ("query", KwQ.terms ["red"])] "operator").isSome ∧
    (kwApply [("red", [1, 2])]
      (.dict [("operator", KwQ.str "or"), ("query", KwQ.terms ["red"])])).1 =
        [("red", [1, 2])] ∧
    (kwApply [("red", [1, 2])]
      (.dict [("operator", KwQ.str "or"), ("query", KwQ.terms ["red"])])).2.1 =
        KwQuery.dict (adel [("operator", KwQ.str "or"), ("query", KwQ.terms ["red"])] "operator") :=
  ⟨by decide,
   (c9_apply_pops_operator [("red", [1, 2])]
     [("operator", KwQ.str "or"), ("query", KwQ.terms ["red"])] (by decide)).1,
   (c9_apply_pops_operator [("red", [1, 2])]
     [("operator", KwQ.str "or"), ("query", KwQ.terms ["red"])] (by decide)).2⟩

/-- Folding the search loop from a seeded (non-`None`) running result
never returns to `None` and agrees with the plain fold on sets. -/
theorem kwStep_some (fwd : KwState) (op : KwOp) :
    ∀ (ws : List String) (r : List Int),
      ws.foldl (kwStep fwd op) (some r) =
        some (ws.foldl (fun rr t => kwCombine op rr ((aget fwd t).getD [])) r) := by
  intro ws
  induction ws with
  | nil => intro r; rfl
  | cons w ws ih =>
    intro r
    rw [List.foldl_cons, List.foldl_cons]
    exact ih (kwCombine op r ((aget fwd w).getD []))

/-- C5: `CatalogKeywordIndex.search` folds the terms' posting sets with
the operator's combinator, the first term seeding the running result to
exactly its posting set regardless of operator, an unknown term
contributing the empty set, and the empty query (or an empty running
result) producing the empty set — the spec-side `kwSearchSpec`. -/
theorem c5_keyword_search_fold (fwd : KwState) (terms : List String) (op : KwOp) :
    kwSearch fwd (.terms terms) op = kwSearchSpec fwd terms op := by
  cases terms with
  | nil => rfl
  | cons w ws =>
    show (match (w :: ws).foldl (kwStep fwd op) none with
          | none => []
          | some r => if r.isEmpty then [] else r) = _
    rw [List.foldl_cons]
    rw [show kwStep fwd op none w = some ((aget fwd w).getD []) from rfl]
    rw [kwStep_some]
    exact ite_isEmpty_self _

/-- C10: when `unindex_doc` finds the id in the reverse index but the
forward bucket of its value is missing, it still deletes the reverse
entry and decrements the counter, deletes no forward bucket, and the
counter-equals-reverse-size invariant is preserved. -/
theorem c10_tolerated_missing_bucket (s : FieldState) (docid : Int) (v : Int)
    (hrev : aget s.rev docid = some v) (hfwd : aget s.fwd v = none) :
    unindex_doc s docid = ⟨s.fwd, adel s.rev docid, s.numDocs - 1⟩ ∧
    (CountOK s → CountOK (unindex_doc s docid)) := by
  have hmain : unindex_doc s docid = ⟨s.fwd, adel s.rev docid, s.numDocs - 1⟩ := by
    unfold unindex_doc
    rw [hrev]
    simp only [hfwd]
  refine ⟨hmain, fun hc => ?_⟩
  rw [hmain]
  unfold CountOK at hc ⊢
  have hlen := aget_adel_length s.rev docid v hrev
  simp only
  omega

/-- Witness for C10 at a concrete inconsistent state. -/
theorem c10_witness :
    aget inconsIdx.rev 1 = some 0 ∧ aget inconsIdx.fwd 0 = none ∧
    (unindex_doc inconsIdx 1 =
      ⟨inconsIdx.fwd, adel inconsIdx.rev 1, inconsIdx.numDocs - 1⟩ ∧
     (CountOK inconsIdx → CountOK (unindex_doc inconsIdx 1))) :=
  ⟨by decide, by decide, c10_tolerated_missing_bucket inconsIdx 1 0 (by decide) (by decide)⟩

/-- C8: with a limit but no sort index, `searchResults` changes only the
returned count of the limitless run, to `min(numdocs, limit)` — the
result set itself (the full intersection) is returned untruncated. -/
theorem c8_limit_without_sort_index (cat : Catalog) (query : List (String × Int))
    (reverse : Bool) (l : Int) (hl : 1 ≤ l) :
    searchResults cat query none reverse (some l) =
      (searchResults cat query none reverse none).map (fun p => (min p.1 l, p.2)) := by
  have hm : min (0 : Int) l = 0 := min_eq_left (by omega)
  unfold searchResults
  cases hsr : srLoop cat query with
  | error e => rfl
  | ok v =>
    cases v with
    | inl r => simp [Except.map, hm]
    | inr results =>
      cases hres : results.isEmpty with
      | true =>
        have h0 : results = [] := by simpa using hres
        subst h0
        simp [Except.map, hm]
      | false =>
        have h0 : results ≠ [] := by simpa using hres
        cases hps : pySorted (fun a b => decide (a.1 ≤ b.1)) results with
        | nil => simp [hps, Except.map, hm, if_neg h0]
        | cons p rest =>
          obtain ⟨p1, p2⟩ := p
          simp [hps, Except.map, if_neg h0]

/-- Witness for C8: two indexes both selecting `{1,2,3}`, limit 2 — the
count is 2 but the returned set still has 3 elements. -/
theorem c8_witness :
    (1 : Int) ≤ 2 ∧
    searchResults [("a", qidxA), ("b", qidxA)] [("a", 0), ("b", 0)] none false (some 2) =
      (searchResults [("a", qidxA), ("b", qidxA)] [("a", 0), ("b", 0)] none false
        none).map (fun p => (min p.1 2, p.2)) ∧
    searchResults [("a", qidxA), ("b", qidxA)] [("a", 0), ("b", 0)] none false (some 2) =
      .ok (2, .set [1, 2, 3]) ∧
    (2 : Int) < ([1, 2, 3] : List Int).length :=
  ⟨by omega,
   c8_limit_without_sort_index [("a", qidxA), ("b", qidxA)] [("a", 0), ("b", 0)]
     false 2 (by omega),
   by rfl, by decide⟩

/-- A successful run of the `updateIndex` item loop extends over an
appended suffix. -/
theorem updIdxLoop_append (disc : DiscVal → DiscVal) :
    ∀ (good : List (PyId × DiscVal)) (st st1 : FieldState) (xs : List (PyId × DiscVal)),
      updIdxLoop disc st good = (st1, none) →
      updIdxLoop disc st (good ++ xs) = updIdxLoop disc st1 xs := by
  intro good
  induction good with
  | nil =>
    intro st st1 xs h
    simp only [updIdxLoop] at h
    obtain ⟨h1, -⟩ := Prod.mk.injEq .. ▸ h
    rw [List.nil_append, h1]
  | cons p rest ih =>
    intro st st1 xs h
    obtain ⟨did, obj⟩ := p
    cases did with
    | other r => simp [updIdxLoop, assertint] at h
    | int n =>
      simp only [updIdxLoop, assertint] at h ⊢
      cases hid : index_doc disc st n obj with
      | mk st' e =>
        rw [hid] at h
        cases e with
        | none => exact ih _ _ _ h
        | some msg => simp at h

/-- A successful run of the `updateIndexes` item loop extends over an
appended suffix. -/
theorem updateIndexes_append :
    ∀ (good : List (PyId × DiscVal)) (cat cat1 : Catalog) (xs : List (PyId × DiscVal)),
      updateIndexes cat good = (cat1, none) →
      updateIndexes cat (good ++ xs) = updateIndexes cat1 xs := by
  intro good
  induction good with
  | nil =>
    intro cat cat1 xs h
    simp only [updateIndexes] at h
    obtain ⟨h1, -⟩ := Prod.mk.injEq .. ▸ h
    rw [List.nil_append, h1]
  | cons p rest ih =>
    intro cat cat1 xs h
    obtain ⟨did, obj⟩ := p
    cases did with
    | other r => simp [updateIndexes, assertint] at h
    | int n =>
      simp only [updateIndexes, assertint] at h ⊢
      cases hid : catIndexDocLoop cat n obj with
      | mk cat' e =>
        rw [hid] at h
        cases e with
        | none => exact ih _ _ _ h
        | some msg => simp at h

/-- C3 (amended): `index_doc` and `unindex_doc` raise on a non-integer
id before any mutation; the bulk updates `updateIndex` / `updateIndexes`
validate each id immediately before indexing that item, so a
non-integer id at any position raises after the items before it have
already been indexed (and they remain indexed). -/
theorem c3_amended :
    (∀ (cat : Catalog) (did : PyId) (obj : DiscVal) (e : String),
       assertint did = some e → catalog_index_doc cat did obj = (cat, some e)) ∧
    (∀ (cat : Catalog) (did : PyId) (e : String),
       assertint did = some e → catalog_unindex_doc cat did = (cat, some e)) ∧
    (∀ (cat : Catalog) (name : String) (idx : CatIdx)
       (good : List (PyId × DiscVal)) (bad : PyId) (obj : DiscVal)
       (rest : List (PyId × DiscVal)) (st1 : FieldState) (e : String),
       aget cat name = some idx →
       updIdxLoop idx.disc idx.st good = (st1, none) →
       assertint bad = some e →
       updateIndex cat name (good ++ (bad, obj) :: rest) =
         (setIdxSt cat name st1, some e)) ∧
    (∀ (cat : Catalog) (good : List (PyId × DiscVal)) (bad : PyId) (obj : DiscVal)
       (rest : List (PyId × DiscVal)) (cat1 : Catalog) (e : String),
       updateIndexes cat good = (cat1, none) →
       assertint bad = some e →
       updateIndexes cat (good ++ (bad, obj) :: rest) = (cat1, some e)) := by
  refine ⟨?_, ?_, ?_, ?_⟩
  · intro cat did obj e h
    unfold catalog_index_doc
    rw [h]
  · intro cat did e h
    unfold catalog_unindex_doc
    rw [h]
  · intro cat name idx good bad obj rest st1 e hname hgood hbad
    unfold updateIndex
    rw [hname]
    simp only
    rw [updIdxLoop_append idx.disc good idx.st st1 ((bad, obj) :: rest) hgood]
    simp only [updIdxLoop]
    rw [hbad]
  · intro cat good bad obj rest cat1 e hgood hbad
    rw [updateIndexes_append good cat cat1 ((bad, obj) :: rest) hgood]
    simp only [updateIndexes]
    rw [hbad]

/-- Counterexample for C3 as stated: a bulk `updateIndex` whose second
item has a non-integer id raises, yet the first item is already indexed
— the named index's state has changed. -/
theorem c3_counterexample :
    (updateIndex [("i", cidx0)] "i" [(.int 1, .val 10), (.other "x", .val 20)]).2 =
      some "ValueError: x is not an integer value" ∧
    (aget (updateIndex [("i", cidx0)] "i"
      [(.int 1, .val 10), (.other "x", .val 20)]).1 "i").map CatIdx.st =
      some ⟨[(10, [1])], [(1, 10)], 1⟩ ∧
    (⟨[(10, [1])], [(1, 10)], 1⟩ : FieldState) ≠ cidx0.st := by
  refine ⟨by rfl, by rfl, by decide⟩

/-! ### Association-list and sorted-set toolkit -/

theorem sortedKeys_ne {β : Type} {l : List (Int × β)} (h : SortedKeys l) :
    l.Pairwise (fun a b => a.1 ≠ b.1) :=
  h.imp (fun hab => ne_of_lt hab)

/-- Reduce an if whose condition is a reflexive equation (robust against
the `Decidable` instance shape). -/
theorem ite_refl_eq {α : Sort _} {κ : Type} [DecidableEq κ] (a : κ) (x y : α) :
    (if a = a then x else y) = x := if_pos rfl

theorem aget_mem {κ β : Type} [DecidableEq κ] :
    ∀ {l : List (κ × β)} {k : κ} {v : β}, aget l k = some v → (k, v) ∈ l := by
  intro l
  induction l with
  | nil => intro k v h; simp [aget] at h
  | cons p rest ih =>
    intro k v h
    obtain ⟨a, b⟩ := p
    by_cases hk : k = a
    · subst hk
      simp only [aget, if_true, eq_self_iff_true, Option.some.injEq] at h
      subst h
      exact List.mem_cons_self _ _
    · simp only [aget, if_neg hk] at h
      exact List.mem_cons_of_mem _ (ih h)

theorem aget_none_not_mem {κ β : Type} [DecidableEq κ] :
    ∀ {l : List (κ × β)} {k : κ}, aget l k = none → ∀ p ∈ l, p.1 ≠ k := by
  intro l
  induction l with
  | nil => intro k _ p hp; simp at hp
  | cons q rest ih =>
    intro k h p hp
    obtain ⟨a, b⟩ := q
    by_cases hk : k = a
    · subst hk; simp [aget] at h
    · simp only [aget, if_neg hk] at h
      rcases List.mem_cons.mp hp with h1 | h1
      · subst h1; exact fun hc => hk hc.symm
      · exact ih h p h1

theorem mem_aget {κ β : Type} [DecidableEq κ] :
    ∀ {l : List (κ × β)}, l.Pairwise (fun a b => a.1 ≠ b.1) →
      ∀ {p : κ × β}, p ∈ l → aget l p.1 = some p.2 := by
  intro l
  induction l with
  | nil => intro _ p hp; simp at hp
  | cons q rest ih =>
    intro hnd p hp
    obtain ⟨hq, hrest⟩ := List.pairwise_cons.mp hnd
    obtain ⟨a, b⟩ := q
    rcases List.mem_cons.mp hp with h1 | h1
    · subst h1; simp [aget]
    · have hne : p.1 ≠ a := fun hc => (hq p h1) (hc ▸ rfl)
      simp only [aget, if_neg hne]
      exact ih hrest h1

theorem aget_aset_self {β : Type} :
    ∀ (l : List (Int × β)) (k : Int) (v : β), aget (aset l k v) k = some v := by
  intro l k v
  induction l with
  | nil => simp [aset, aget]
  | cons q rest ih =>
    obtain ⟨a, b⟩ := q
    by_cases h1 : k < a
    · simp [aset, if_pos h1, aget]
    · by_cases h2 : k = a
      · simp [aset, if_neg h1, if_pos h2, aget]
      · simp [aset, if_neg h1, if_neg h2, aget, ih]

theorem aget_aset_ne {β : Type} {k k' : Int} (hne : k' ≠ k) :
    ∀ (l : List (Int × β)) (v : β), aget (aset l k v) k' = aget l k' := by
  intro l v
  induction l with
  | nil => simp [aset, aget, if_neg hne]
  | cons q rest ih =>
    obtain ⟨a, b⟩ := q
    by_cases h1 : k < a
    · simp only [aset, if_pos h1, aget, if_neg hne]
    · by_cases h2 : k = a
      · have h3 : k' ≠ a := fun hc => hne (hc.trans h2.symm)
        simp only [aset, if_neg h1, if_pos h2, aget, if_neg h3, if_neg hne]
      · simp only [aset, if_neg h1, if_neg h2, aget]
        by_cases h3 : k' = a
        · rw [if_pos h3, if_pos h3]
        · rw [if_neg h3, if_neg h3, ih]

theorem mem_aset {β : Type} :
    ∀ {l : List (Int × β)} {k : Int} {v : β} {p : Int × β},
      p ∈ aset l k v → p = (k, v) ∨ p ∈ l := by
  intro l
  induction l with
  | nil => intro k v p hp; simp [aset] at hp; exact Or.inl hp
  | cons q rest ih =>
    intro k v p hp
    obtain ⟨a, b⟩ := q
    by_cases h1 : k < a
    · simp only [aset, if_pos h1] at hp
      rcases List.mem_cons.mp hp with h | h
      · exact Or.inl h
      · exact Or.inr h
    · by_cases h2 : k = a
      · simp only [aset, if_neg h1, if_pos h2] at hp
        rcases List.mem_cons.mp hp with h | h
        · exact Or.inl (by rw [h, h2])
        · exact Or.inr (List.mem_cons_of_mem _ h)
      · simp only [aset, if_neg h1, if_neg h2] at hp
        rcases List.mem_cons.mp hp with h | h
        · exact Or.inr (h ▸ List.mem_cons_self _ _)
        · rcases ih h with h' | h'
          · exact Or.inl h'
          · exact Or.inr (List.mem_cons_of_mem _ h')

theorem sortedKeys_aset {β : Type} :
    ∀ {l : List (Int × β)} (k : Int) (v : β), SortedKeys l → SortedKeys (aset l k v) := by
  intro l
  induction l with
  | nil => intro k v _; simp [aset, SortedKeys]
  | cons q rest ih =>
    intro k v hs
    obtain ⟨a, b⟩ := q
    obtain ⟨hq, hrest⟩ := List.pairwise_cons.mp hs
    by_cases h1 : k < a
    · simp only [aset, if_pos h1]
      refine List.pairwise_cons.mpr ⟨?_, hs⟩
      intro p hp
      rcases List.mem_cons.mp hp with h | h
      · rw [h]; exact h1
      · exact lt_trans h1 (hq p h)
    · by_cases h2 : k = a
      · simp only [aset, if_neg h1, if_pos h2]
        subst h2
        exact List.pairwise_cons.mpr ⟨hq, hrest⟩
      · simp only [aset, if_neg h1, if_neg h2]
        refine List.pairwise_cons.mpr ⟨?_, ih k v hrest⟩
        intro p hp
        rcases mem_aset hp with h | h
        · rw [h]; exact lt_of_le_of_ne (by omega) (fun hc => h2 hc.symm)
        · exact hq p h

theorem adel_sublist {κ β : Type} [DecidableEq κ] :
    ∀ (l : List (κ × β)) (k : κ), (adel l k).Sublist l := by
  intro l k
  induction l with
  | nil => simp [adel]
  | cons q rest ih =>
    obtain ⟨a, b⟩ := q
    by_cases h : k = a
    · simp only [adel, if_pos h]
      exact List.sublist_cons_self _ _
    · simp only [adel, if_neg h]
      exact ih.cons₂ _

theorem sortedKeys_adel {β : Type} {l : List (Int × β)} (k : Int)
    (h : SortedKeys l) : SortedKeys (adel l k) :=
  h.sublist (adel_sublist l k)

theorem mem_adel_iff {κ β : Type} [DecidableEq κ] :
    ∀ {l : List (κ × β)}, l.Pairwise (fun a b => a.1 ≠ b.1) →
      ∀ (k : κ) (p : κ × β), p ∈ adel l k ↔ p ∈ l ∧ p.1 ≠ k := by
  intro l
  induction l with
  | nil => intro _ k p; simp [adel]
  | cons q rest ih =>
    intro hnd k p
    obtain ⟨hq, hrest⟩ := List.pairwise_cons.mp hnd
    obtain ⟨a, b⟩ := q
    by_cases h : k = a
    · simp only [adel, if_pos h]
      subst h
      constructor
      · intro hp
        refine ⟨List.mem_cons_of_mem _ hp, ?_⟩
        exact fun hc => (hq p hp) (hc ▸ rfl)
      · intro ⟨hp, hne⟩
        rcases List.mem_cons.mp hp with h1 | h1
        · exact absurd (by rw [h1]) hne
        · exact h1
    · simp only [adel, if_neg h]
      constructor
      · intro hp
        rcases List.mem_cons.mp hp with h1 | h1
        · subst h1
          exact ⟨List.mem_cons_self _ _, fun hc => h hc.symm⟩
        · obtain ⟨h2, h3⟩ := (ih hrest k p).mp h1
          exact ⟨List.mem_cons_of_mem _ h2, h3⟩
      · intro ⟨hp, hne⟩
        rcases List.mem_cons.mp hp with h1 | h1
        · exact h1 ▸ List.mem_cons_self _ _
        · exact List.mem_cons_of_mem _ ((ih hrest k p).mpr ⟨h1, hne⟩)

theorem aget_adel_ne {κ β : Type} [DecidableEq κ] {k k' : κ} (hne : k' ≠ k) :
    ∀ (l : List (κ × β)), aget (adel l k) k' = aget l k' := by
  intro l
  induction l with
  | nil => simp [adel]
  | cons q rest ih =>
    obtain ⟨a, b⟩ := q
    by_cases h : k = a
    · have h2 : k' ≠ a := fun hc => hne (hc.trans h.symm)
      simp only [adel, if_pos h, aget, if_neg h2]
    · simp only [adel, if_neg h, aget]
      by_cases h2 : k' = a
      · rw [if_pos h2, if_pos h2]
      · rw [if_neg h2, if_neg h2, ih]

theorem length_aset_some {β : Type} :
    ∀ {l : List (Int × β)}, SortedKeys l → ∀ {k : Int} {w : β}, aget l k = some w →
      ∀ (v : β), (aset l k v).length = l.length := by
  intro l
  induction l with
  | nil => intro _ k w h; simp [aget] at h
  | cons q rest ih =>
    intro hs k w h v
    obtain ⟨a, b⟩ := q
    obtain ⟨hq, hrest⟩ := List.pairwise_cons.mp hs
    by_cases h2 : k = a
    · subst h2
      simp [aset, if_neg (lt_irrefl k)]
    · simp only [aget, if_neg h2] at h
      have hka : a < k := hq _ (aget_mem h)
      have h1 : ¬ k < a := by omega
      simp [aset, if_neg h1, if_neg h2, ih hrest h v]

theorem length_aset_none {β : Type} :
    ∀ {l : List (Int × β)} {k : Int}, aget l k = none →
      ∀ (v : β), (aset l k v).length = l.length + 1 := by
  intro l
  induction l with
  | nil => intro k _ v; simp [aset]
  | cons q rest ih =>
    intro k h v
    obtain ⟨a, b⟩ := q
    by_cases h2 : k = a
    · subst h2; simp [aget] at h
    · simp only [aget, if_neg h2] at h
      by_cases h1 : k < a
      · simp [aset, if_pos h1]
      · simp [aset, if_neg h1, if_neg h2, ih h v]

theorem mem_sinsert :
    ∀ {l : List Int} {e x : Int}, x ∈ sinsert l e ↔ x = e ∨ x ∈ l := by
  intro l
  induction l with
  | nil => intro e x; simp [sinsert]
  | cons y ys ih =>
    intro e x
    by_cases h1 : e < y
    · simp only [sinsert, if_pos h1, List.mem_cons]
    · by_cases h2 : e = y
      · simp only [sinsert, if_neg h1, if_pos h2, List.mem_cons]
        subst h2
        tauto
      · simp only [sinsert, if_neg h1, if_neg h2, List.mem_cons, ih]
        tauto

theorem sinsert_pairwise :
    ∀ {l : List Int}, l.Pairwise (fun a b => a < b) → ∀ (e : Int),
      (sinsert l e).Pairwise (fun a b => a < b) := by
  intro l
  induction l with
  | nil => intro _ e; simp [sinsert]
  | cons y ys ih =>
    intro hp e
    obtain ⟨hy, hys⟩ := List.pairwise_cons.mp hp
    by_cases h1 : e < y
    · simp only [sinsert, if_pos h1]
      refine List.pairwise_cons.mpr ⟨?_, hp⟩
      intro x hx
      rcases List.mem_cons.mp hx with h | h
      · omega
      · exact lt_trans h1 (hy x h)
    · by_cases h2 : e = y
      · simp only [sinsert, if_neg h1, if_pos h2]
        exact hp
      · simp only [sinsert, if_neg h1, if_neg h2]
        refine List.pairwise_cons.mpr ⟨?_, ih hys e⟩
        intro x hx
        rcases mem_sinsert.mp hx with h | h
        · omega
        · exact hy x h

theorem mem_aset_of_ne {β : Type} :
    ∀ {l : List (Int × β)} {p : Int × β} (k : Int) (v : β),
      p ∈ l → p.1 ≠ k → p ∈ aset l k v := by
  intro l
  induction l with
  | nil => intro p k v hp _; simp at hp
  | cons q rest ih =>
    intro p k v hp hne
    obtain ⟨a, b⟩ := q
    by_cases h1 : k < a
    · simp only [aset, if_pos h1]
      exact List.mem_cons_of_mem _ hp
    · by_cases h2 : k = a
      · simp only [aset, if_neg h1, if_pos h2]
        rcases List.mem_cons.mp hp with h | h
        · exact absurd (by rw [h, h2]) hne
        · exact List.mem_cons_of_mem _ h
      · simp only [aset, if_neg h1, if_neg h2]
        rcases List.mem_cons.mp hp with h | h
        · exact h ▸ List.mem_cons_self _ _
        · exact List.mem_cons_of_mem _ (ih k v h hne)

theorem self_mem_aset {β : Type} :
    ∀ (l : List (Int × β)) (k : Int) (v : β), (k, v) ∈ aset l k v := by
  intro l k v
  induction l with
  | nil => simp [aset]
  | cons q rest ih =>
    obtain ⟨a, b⟩ := q
    by_cases h1 : k < a
    · simp [aset, if_pos h1]
    · by_cases h2 : k = a
      · simp [aset, if_neg h1, if_pos h2]
      · simp only [aset, if_neg h1, if_neg h2]
        exact List.mem_cons_of_mem _ ih

theorem mem_aset_iff_sorted {β : Type} :
    ∀ {l : List (Int × β)}, SortedKeys l → ∀ {k : Int} {v : β} {p : Int × β},
      (p ∈ aset l k v ↔ p = (k, v) ∨ (p ∈ l ∧ p.1 ≠ k)) := by
  intro l
  induction l with
  | nil =>
    intro _ k v p
    simp [aset]
  | cons q rest ih =>
    intro hs k v p
    obtain ⟨a, b⟩ := q
    obtain ⟨hq, hrest⟩ := List.pairwise_cons.mp hs
    by_cases h1 : k < a
    · simp only [aset, if_pos h1, List.mem_cons]
      constructor
      · rintro (h | h | h)
        · exact Or.inl h
        · refine Or.inr ⟨Or.inl h, ?_⟩
          rw [h]
          exact fun hc => absurd hc (by omega)
        · refine Or.inr ⟨Or.inr h, ?_⟩
          have := hq p h
          omega
      · rintro (h | ⟨h, hne⟩)
        · exact Or.inl h
        · rcases h with h' | h'
          · exact Or.inr (Or.inl h')
          · exact Or.inr (Or.inr h')
    · by_cases h2 : k = a
      · simp only [aset, if_neg h1, if_pos h2, List.mem_cons]
        constructor
        · rintro (h | h)
          · exact Or.inl h
          · refine Or.inr ⟨Or.inr h, ?_⟩
            have := hq p h
            omega
        · rintro (h | ⟨h, hne⟩)
          · exact Or.inl h
          · rcases h with h' | h'
            · exact absurd (by rw [h', h2]) hne
            · exact Or.inr h'
      · simp only [aset, if_neg h1, if_neg h2, List.mem_cons, ih hrest]
        constructor
        · rintro (h | h | ⟨h, hne⟩)
          · refine Or.inr ⟨Or.inl h, ?_⟩
            rw [h]
            exact fun hc => h2 hc.symm
          · exact Or.inl h
          · exact Or.inr ⟨Or.inr h, hne⟩
        · rintro (h | ⟨h, hne⟩)
          · exact Or.inr (Or.inl h)
          · rcases h with h' | h'
            · exact Or.inl h'
            · exact Or.inr (Or.inr ⟨h', hne⟩)

theorem sinsert_ne_nil (l : List Int) (e : Int) : sinsert l e ≠ [] := by
  cases l with
  | nil => simp [sinsert]
  | cons y ys =>
    by_cases h1 : e < y
    · simp [sinsert, if_pos h1]
    · by_cases h2 : e = y
      · simp [sinsert, if_neg h1, if_pos h2]
      · simp [sinsert, if_neg h1, if_neg h2]

/-! ### Forward-bucket helpers: preservation lemmas -/

theorem addToBucket_sorted (fwd : List (Int × List Int)) (v : Int) (d : Int)
    (h : SortedKeys fwd) : SortedKeys (addToBucket fwd v d) := by
  unfold addToBucket
  cases aget fwd v with
  | none => exact sortedKeys_aset v [d] h
  | some b => exact sortedKeys_aset v (sinsert b d) h

theorem addToBucket_buckets (fwd : List (Int × List Int)) (v : Int) (d : Int)
    (h : SortedKeys fwd)
    (hb : ∀ p ∈ fwd, p.2.Pairwise (fun a b : Int => a < b) ∧ p.2 ≠ []) :
    ∀ p ∈ addToBucket fwd v d,
      p.2.Pairwise (fun a b : Int => a < b) ∧ p.2 ≠ [] := by
  unfold addToBucket
  cases hv : aget fwd v with
  | none =>
    intro p hp
    rcases (mem_aset_iff_sorted h).mp hp with rfl | ⟨hp', _⟩
    · exact ⟨by simp, by simp⟩
    · exact hb p hp'
  | some b =>
    intro p hp
    rcases (mem_aset_iff_sorted h).mp hp with rfl | ⟨hp', _⟩
    · exact ⟨sinsert_pairwise (hb (v, b) (aget_mem hv)).1 d, sinsert_ne_nil b d⟩
    · exact hb p hp'

theorem addToBucket_self (fwd : List (Int × List Int)) (v : Int) (d : Int) :
    ∃ p ∈ addToBucket fwd v d, p.1 = v ∧ d ∈ p.2 := by
  unfold addToBucket
  cases aget fwd v with
  | none => exact ⟨(v, [d]), self_mem_aset fwd v [d], rfl, by simp⟩
  | some b =>
    exact ⟨(v, sinsert b d), self_mem_aset fwd v (sinsert b d), rfl,
      mem_sinsert.mpr (Or.inl rfl)⟩

theorem addToBucket_preserves {fwd : List (Int × List Int)} {v : Int}
    {d : Int} {c : Int} {x : Int} (h : SortedKeys fwd)
    (hm : ∃ p ∈ fwd, p.1 = c ∧ x ∈ p.2) :
    ∃ p ∈ addToBucket fwd v d, p.1 = c ∧ x ∈ p.2 := by
  obtain ⟨p, hp, hp1, hx⟩ := hm
  unfold addToBucket
  by_cases hcv : c = v
  · subst hcv
    have hv : aget fwd c = some p.2 := by
      have := mem_aget (sortedKeys_ne h) hp
      rw [hp1] at this
      exact this
    rw [hv]
    exact ⟨(c, sinsert p.2 d), self_mem_aset fwd c (sinsert p.2 d), rfl,
      mem_sinsert.mpr (Or.inr hx)⟩
  · cases aget fwd v with
    | none =>
      exact ⟨p, mem_aset_of_ne v [d] hp (by rw [hp1]; exact hcv), hp1, hx⟩
    | some b =>
      exact ⟨p, mem_aset_of_ne v (sinsert b d) hp (by rw [hp1]; exact hcv), hp1, hx⟩

theorem delFromBucket_sorted (fwd : List (Int × List Int)) (v : Int) (d : Int)
    (h : SortedKeys fwd) : SortedKeys (delFromBucket fwd v d) := by
  unfold delFromBucket
  cases aget fwd v with
  | none => exact h
  | some b =>
    by_cases hbe : (b.erase d).isEmpty
    · simp only [hbe, if_true]
      exact sortedKeys_adel v h
    · simp only [hbe, if_false]
      exact sortedKeys_aset v (b.erase d) h

theorem delFromBucket_buckets (fwd : List (Int × List Int)) (v : Int) (d : Int)
    (h : SortedKeys fwd)
    (hb : ∀ p ∈ fwd, p.2.Pairwise (fun a b : Int => a < b) ∧ p.2 ≠ []) :
    ∀ p ∈ delFromBucket fwd v d,
      p.2.Pairwise (fun a b : Int => a < b) ∧ p.2 ≠ [] := by
  unfold delFromBucket
  cases hv : aget fwd v with
  | none => exact hb
  | some b =>
    by_cases hbe : (b.erase d).isEmpty
    · simp only [hbe, if_true]
      intro p hp
      exact hb p ((adel_sublist fwd v).subset hp)
    · simp only [hbe, if_false]
      intro p hp
      rcases (mem_aset_iff_sorted h).mp hp with rfl | ⟨hp', _⟩
      · refine ⟨(hb (v, b) (aget_mem hv)).1.sublist (List.erase_sublist d b), ?_⟩
        intro hc
        apply hbe
        rw [show b.erase d = [] from hc]
        rfl
      · exact hb p hp'

theorem delFromBucket_preserves {fwd : List (Int × List Int)} {v : Int}
    {d : Int} {c : Int} {x : Int} (h : SortedKeys fwd) (hxd : x ≠ d)
    (hm : ∃ p ∈ fwd, p.1 = c ∧ x ∈ p.2) :
    ∃ p ∈ delFromBucket fwd v d, p.1 = c ∧ x ∈ p.2 := by
  obtain ⟨p, hp, hp1, hx⟩ := hm
  unfold delFromBucket
  by_cases hcv : c = v
  · subst hcv
    have hv : aget fwd c = some p.2 := by
      have := mem_aget (sortedKeys_ne h) hp
      rw [hp1] at this
      exact this
    rw [hv]
    have hxe : x ∈ p.2.erase d := (List.mem_erase_of_ne hxd).mpr hx
    have hne : ¬ (p.2.erase d).isEmpty = true := by
      intro hc
      rw [List.isEmpty_iff] at hc
      rw [hc] at hxe
      exact absurd hxe (List.not_mem_nil x)
    simp only [hne, if_false]
    exact ⟨(c, p.2.erase d), self_mem_aset fwd c (p.2.erase d), rfl, hxe⟩
  · cases hv : aget fwd v with
    | none => exact ⟨p, hp, hp1, hx⟩
    | some b =>
      by_cases hbe : (b.erase d).isEmpty
      · simp only [hbe, if_true]
        refine ⟨p, ?_, hp1, hx⟩
        exact (mem_adel_iff (sortedKeys_ne h) v p).mpr ⟨hp, by rw [hp1]; exact hcv⟩
      · simp only [hbe, if_false]
        exact ⟨p, mem_aset_of_ne v (b.erase d) hp (by rw [hp1]; exact hcv), hp1, hx⟩

/-! ### Invariant preservation (C6) -/

theorem preserve_index (s : FieldState) (d : Int) (v : Int)
    (hw : WFS s) (hi : Inv s) :
    WFS (base_index_doc s d v) ∧ Inv (base_index_doc s d v) := by
  obtain ⟨hfs, hrs, hbk⟩ := hw
  obtain ⟨hcr, hco⟩ := hi
  unfold base_index_doc
  cases hrev : aget s.rev d with
  | none =>
    refine ⟨⟨addToBucket_sorted _ _ _ hfs, sortedKeys_aset _ _ hrs,
      addToBucket_buckets _ _ _ hfs hbk⟩, ?_, ?_⟩
    · intro q hq
      rcases (mem_aset_iff_sorted hrs).mp hq with rfl | ⟨hq', _⟩
      · exact addToBucket_self s.fwd v d
      · exact addToBucket_preserves hfs (hcr q hq')
    · unfold CountOK at hco ⊢
      simp only
      rw [length_aset_none hrev]
      push_cast
      omega
  | some vold =>
    have hfsorted1 := delFromBucket_sorted s.fwd vold d hfs
    refine ⟨⟨addToBucket_sorted _ _ _ hfsorted1, sortedKeys_aset _ _ hrs,
      addToBucket_buckets _ _ _ hfsorted1 (delFromBucket_buckets _ _ _ hfs hbk)⟩,
      ?_, ?_⟩
    · intro q hq
      rcases (mem_aset_iff_sorted hrs).mp hq with rfl | ⟨hq', hqd⟩
      · exact addToBucket_self _ v d
      · exact addToBucket_preserves hfsorted1
          (delFromBucket_preserves hfs hqd (hcr q hq'))
    · unfold CountOK at hco ⊢
      simp only
      rw [length_aset_some hrs hrev]
      exact hco

theorem preserve_unindex (s : FieldState) (d : Int)
    (hw : WFS s) (hi : Inv s) : WFS (unindex_doc s d) ∧ Inv (unindex_doc s d) := by
  obtain ⟨hfs, hrs, hbk⟩ := hw
  obtain ⟨hcr, hco⟩ := hi
  unfold unindex_doc
  cases hrev : aget s.rev d with
  | none => exact ⟨⟨hfs, hrs, hbk⟩, hcr, hco⟩
  | some value =>
    obtain ⟨p, hpmem, hp1, hdp⟩ := hcr (d, value) (aget_mem hrev)
    have hfv : aget s.fwd value = some p.2 := by
      have := mem_aget (sortedKeys_ne hfs) hpmem
      rw [hp1] at this
      exact this
    have hcount : CountOK ⟨s.fwd, adel s.rev d, s.numDocs - 1⟩ := by
      unfold CountOK at hco ⊢
      simp only
      have := aget_adel_length s.rev d value hrev
      omega
    simp only [hfv, if_pos hdp]
    by_cases hbe : (p.2.erase d).isEmpty
    · simp only [hbe, if_true]
      refine ⟨⟨sortedKeys_adel _ hfs, sortedKeys_adel _ hrs, ?_⟩, ?_, ?_⟩
      · intro q hq
        exact hbk q ((adel_sublist s.fwd value).subset hq)
      · intro q hq
        obtain ⟨hq', hqne⟩ := (mem_adel_iff (sortedKeys_ne hrs) d q).mp hq
        obtain ⟨p', hp'm, hp'1, hxp'⟩ := hcr q hq'
        by_cases hpv : p'.1 = value
        · exfalso
          have hp'2 : p'.2 = p.2 := by
            have h2 := mem_aget (sortedKeys_ne hfs) hp'm
            rw [hpv, hfv] at h2
            exact (Option.some.inj h2).symm
          have hx : q.1 ∈ p.2.erase d :=
            (List.mem_erase_of_ne hqne).mpr (hp'2 ▸ hxp')
          rw [List.isEmpty_iff] at hbe
          rw [hbe] at hx
          exact absurd hx (List.not_mem_nil q.1)
        · exact ⟨p', (mem_adel_iff (sortedKeys_ne hfs) value p').mpr ⟨hp'm, hpv⟩,
            hp'1, hxp'⟩
      · exact hcount
    · simp only [hbe, if_false]
      refine ⟨⟨sortedKeys_aset _ _ hfs, sortedKeys_adel _ hrs, ?_⟩, ?_, ?_⟩
      · intro q hq
        rcases (mem_aset_iff_sorted hfs).mp hq with rfl | ⟨hq', _⟩
        · refine ⟨(hbk p hpmem).1.sublist (List.erase_sublist d p.2), ?_⟩
          intro hc
          apply hbe
          rw [show p.2.erase d = [] from hc]
          rfl
        · exact hbk q hq'
      · intro q hq
        obtain ⟨hq', hqne⟩ := (mem_adel_iff (sortedKeys_ne hrs) d q).mp hq
        obtain ⟨p', hp'm, hp'1, hxp'⟩ := hcr q hq'
        by_cases hpv : p'.1 = value
        · have hp'2 : p'.2 = p.2 := by
            have h2 := mem_aget (sortedKeys_ne hfs) hp'm
            rw [hpv, hfv] at h2
            exact (Option.some.inj h2).symm
          refine ⟨(value, p.2.erase d),
            (mem_aset_iff_sorted hfs).mpr (Or.inl rfl), ?_, ?_⟩
          · rw [← hpv, hp'1]
          · exact (List.mem_erase_of_ne hqne).mpr (hp'2 ▸ hxp')
        · exact ⟨p', (mem_aset_iff_sorted hfs).mpr (Or.inr ⟨hp'm, hpv⟩), hp'1, hxp'⟩
      · exact hcount

theorem emptyField_ok : WFS emptyField ∧ Inv emptyField := by
  refine ⟨⟨?_, ?_, ?_⟩, ?_, ?_⟩ <;>
    simp [SortedKeys, emptyField, ConsRev, CountOK]

theorem runOps_preserve : ∀ (ops : List FOp) (s : FieldState),
    WFS s → Inv s → WFS (runOps s ops) ∧ Inv (runOps s ops) := by
  intro ops
  induction ops with
  | nil => intro s hw hi; exact ⟨hw, hi⟩
  | cons op rest ih =>
    intro s hw hi
    cases op with
    | index dd dv =>
      cases dv with
      | marker =>
        have h := preserve_unindex s dd hw hi
        exact ih _ h.1 h.2
      | persistent => exact ih _ hw hi
      | val v =>
        have h := preserve_index s dd v hw hi
        exact ih _ h.1 h.2
    | unindex dd =>
      have h := preserve_unindex s dd hw hi
      exact ih _ h.1 h.2

/-- C6: for every sequence of `index_doc` / `unindex_doc` calls on a
field index, at every point every id present in the reverse index is a
member of the forward bucket of its value (`id ∈ forward[reverse[id]]`),
and the document counter equals the number of reverse entries. -/
theorem c6_forward_reverse_invariant (ops : List FOp) :
    Inv (runOps emptyField ops) :=
  (runOps_preserve ops emptyField emptyField_ok.1 emptyField_ok.2).2

/-- Witness for C3's amended statement at a concrete catalog and item
list (third conjunct of `c3_amended`). -/
theorem c3_witness :
    updateIndex [("i", cidx0)] "i" [(.int 1, .val 10), (.other "x", .val 20)] =
      (setIdxSt [("i", cidx0)] "i" ⟨[(10, [1])], [(1, 10)], 1⟩,
       some "ValueError: x is not an integer value") :=
  c3_amended.2.2.1 [("i", cidx0)] "i" cidx0 [(.int 1, .val 10)] (.other "x") (.val 20)
    [] ⟨[(10, [1])], [(1, 10)], 1⟩ "ValueError: x is not an integer value"
    (by rfl) (by rfl) (by rfl)

/-! ### Stable insertion sort (`pySorted`): permutation and order -/

theorem pairLe_refl (a : Int × Int) : pairLe a a = true := by
  simp [pairLe]

theorem pairLe_total (a b : Int × Int) : pairLe a b = true ∨ pairLe b a = true := by
  simp only [pairLe, Bool.or_eq_true, Bool.and_eq_true, decide_eq_true_eq]
  omega

theorem pairLe_trans {a b c : Int × Int} (h1 : pairLe a b = true)
    (h2 : pairLe b c = true) : pairLe a c = true := by
  simp only [pairLe, Bool.or_eq_true, Bool.and_eq_true, decide_eq_true_eq] at h1 h2 ⊢
  omega

theorem okeyLe_total (a b : Option Int) : okeyLe a b = true ∨ okeyLe b a = true := by
  cases a <;> cases b <;> simp [okeyLe] <;> omega

theorem okeyLe_trans {a b c : Option Int} (h1 : okeyLe a b = true)
    (h2 : okeyLe b c = true) : okeyLe a c = true := by
  cases a <;> cases b <;> cases c <;> simp [okeyLe] at h1 h2 ⊢ <;> omega

theorem insortR_perm {α : Type} (le : α → α → Bool) :
    ∀ (l : List α) (e : α), (insortR le l e).Perm (e :: l) := by
  intro l e
  induction l with
  | nil => exact List.Perm.refl _
  | cons x xs ih =>
    by_cases h : le x e
    · simp only [insortR, if_pos h]
      exact (ih.cons x).trans (List.Perm.swap e x xs)
    · simp only [insortR, if_neg h]
      exact List.Perm.refl _

theorem insortR_length {α : Type} (le : α → α → Bool) (l : List α) (e : α) :
    (insortR le l e).length = l.length + 1 :=
  (insortR_perm le l e).length_eq

theorem pySorted_perm {α : Type} (le : α → α → Bool) :
    ∀ (l : List α), (pySorted le l).Perm l := by
  intro l
  have main : ∀ (l acc : List α), (l.foldl (insortR le) acc).Perm (acc ++ l) := by
    intro l
    induction l with
    | nil => intro acc; simp
    | cons x xs ih =>
      intro acc
      rw [List.foldl_cons]
      refine (ih (insortR le acc x)).trans ?_
      refine (((insortR_perm le acc x)).append_right xs).trans ?_
      exact List.perm_middle.symm
  simpa using main l []

theorem pySorted_length {α : Type} (le : α → α → Bool) (l : List α) :
    (pySorted le l).length = l.length :=
  (pySorted_perm le l).length_eq

theorem pySorted_mem {α : Type} (le : α → α → Bool) (l : List α) (x : α) :
    x ∈ pySorted le l ↔ x ∈ l :=
  (pySorted_perm le l).mem_iff

theorem insortR_pairwise {α : Type} {le : α → α → Bool}
    (htot : ∀ a b, le a b = true ∨ le b a = true)
    (htrans : ∀ {a b c}, le a b = true → le b c = true → le a c = true) :
    ∀ {l : List α}, l.Pairwise (fun a b => le a b = true) → ∀ (e : α),
      (insortR le l e).Pairwise (fun a b => le a b = true) := by
  intro l
  induction l with
  | nil => intro _ e; simp [insortR]
  | cons x xs ih =>
    intro hp e
    obtain ⟨hx, hxs⟩ := List.pairwise_cons.mp hp
    by_cases h : le x e
    · simp only [insortR, if_pos h]
      refine List.pairwise_cons.mpr ⟨?_, ih hxs e⟩
      intro y hy
      rcases List.mem_cons.mp ((insortR_perm le xs e).mem_iff.mp hy) with rfl | hy'
      · exact h
      · exact hx y hy'
    · simp only [insortR, if_neg h]
      have hle : le e x = true := (htot x e).resolve_left h
      refine List.pairwise_cons.mpr ⟨?_, hp⟩
      intro y hy
      rcases List.mem_cons.mp hy with rfl | hy'
      · exact hle
      · exact htrans hle (hx y hy')

theorem pySorted_pairwise {α : Type} (le : α → α → Bool)
    (htot : ∀ a b, le a b = true ∨ le b a = true)
    (htrans : ∀ {a b c}, le a b = true → le b c = true → le a c = true)
    (l : List α) : (pySorted le l).Pairwise (fun a b => le a b = true) := by
  have main : ∀ (l acc : List α), acc.Pairwise (fun a b => le a b = true) →
      (l.foldl (insortR le) acc).Pairwise (fun a b => le a b = true) := by
    intro l
    induction l with
    | nil => intro acc h; exact h
    | cons x xs ih =>
      intro acc h
      rw [List.foldl_cons]
      exact ih _ (insortR_pairwise htot htrans h x)
  exact main l [] (List.Pairwise.nil)

theorem pySorted_append {α : Type} (le : α → α → Bool) (l : List α) (e : α) :
    pySorted le (l ++ [e]) = insortR le (pySorted le l) e := by
  unfold pySorted
  rw [List.foldl_append]
  rfl

theorem eq_of_perm_of_strict {α : Type} (lt : α → α → Prop)
    (hasym : ∀ a b, lt a b → ¬ lt b a) :
    ∀ (l₁ l₂ : List α), l₁.Perm l₂ → l₁.Pairwise lt → l₂.Pairwise lt → l₁ = l₂ := by
  intro l₁ l₂ hp h1 h2
  letI : IsAntisymm α lt := ⟨fun a b hab hba => absurd hba (hasym a b hab)⟩
  exact List.eq_of_perm_of_sorted hp h1 h2

/-! ### The emission loops truncate to `take` -/

theorem fullEmit_none (rev : List (Int × Int)) :
    ∀ (xs : List Int) (n : Nat),
      fullEmit rev none n xs = xs.filter (fun d => (aget rev d).isSome) := by
  intro xs
  induction xs with
  | nil => intro n; rfl
  | cons d ds ih =>
    intro n
    unfold fullEmit
    cases hd : aget rev d with
    | none => rw [ih n, List.filter_cons_of_neg (by simp [hd])]
    | some v =>
      simp only [hitLimit, Bool.false_eq_true, if_false]
      rw [ih (n + 1), List.filter_cons_of_pos (by simp [hd])]

theorem fullEmit_take (rev : List (Int × Int)) :
    ∀ (xs : List Int) (k n : Nat), n ≤ k →
      fullEmit rev (some k) n xs =
        (xs.filter (fun d => (aget rev d).isSome)).take (k - n) := by
  intro xs
  induction xs with
  | nil => intro k n _; simp [fullEmit]
  | cons d ds ih =>
    intro k n hnk
    unfold fullEmit
    cases hd : aget rev d with
    | none => rw [ih k n hnk, List.filter_cons_of_neg (by simp [hd])]
    | some v =>
      rw [List.filter_cons_of_pos (by simp [hd])]
      by_cases hh : k ≤ n
      · have hkn : k = n := le_antisymm hh hnk
        simp only [hitLimit, decide_eq_true_eq, if_pos hh]
        rw [hkn]
        simp
      · have hlt : n < k := lt_of_not_ge hh
        simp only [hitLimit, decide_eq_true_eq, if_neg hh]
        rw [ih k (n + 1) hlt]
        have : k - n = (k - (n + 1)) + 1 := by omega
        rw [this, List.take_succ_cons]

theorem bucketEmit_none :
    ∀ (xs : List Int) (n : Nat), bucketEmit none n xs = (xs, some (n + xs.length)) := by
  intro xs
  induction xs with
  | nil => intro n; simp [bucketEmit]
  | cons d ds ih =>
    intro n
    unfold bucketEmit
    simp only [hitLimit, Bool.false_eq_true, if_false, ih (n + 1)]
    refine Prod.ext rfl ?_
    simp only [List.length_cons]
    exact congrArg some (by omega)

theorem bucketEmit_take :
    ∀ (xs : List Int) (k n : Nat), n ≤ k →
      bucketEmit (some k) n xs =
        (xs.take (k - n),
         if xs.length ≤ k - n then some (n + xs.length) else none) := by
  intro xs
  induction xs with
  | nil => intro k n _; simp [bucketEmit]
  | cons d ds ih =>
    intro k n hnk
    unfold bucketEmit
    by_cases hh : k ≤ n
    · have hkn : k = n := le_antisymm hh hnk
      simp only [hitLimit, decide_eq_true_eq, if_pos hh]
      rw [hkn]
      simp
    · have hlt : n < k := lt_of_not_ge hh
      simp only [hitLimit, decide_eq_true_eq, if_neg hh]
      rw [ih k (n + 1) hlt]
      have h1 : k - n = (k - (n + 1)) + 1 := by omega
      rw [h1, List.take_succ_cons]
      simp only [List.length_cons]
      refine Prod.ext rfl ?_
      by_cases h2 : ds.length ≤ k - (n + 1)
      · rw [if_pos h2, if_pos (show ds.length + 1 ≤ k - (n + 1) + 1 by omega)]
        exact congrArg some (by omega)
      · rw [if_neg h2, if_neg (show ¬ (ds.length + 1 ≤ k - (n + 1) + 1) by omega)]

theorem lazyEmit_none (docids : List Int) :
    ∀ (fwd : List (Int × List Int)) (n : Nat),
      lazyEmit docids none n fwd = allIsect docids fwd := by
  intro fwd
  induction fwd with
  | nil => intro n; rfl
  | cons p rest ih =>
    intro n
    obtain ⟨v, b⟩ := p
    unfold lazyEmit
    rw [bucketEmit_none]
    dsimp only
    rw [ih]
    rfl

theorem lazyEmit_take (docids : List Int) :
    ∀ (fwd : List (Int × List Int)) (k n : Nat), n ≤ k →
      lazyEmit docids (some k) n fwd = (allIsect docids fwd).take (k - n) := by
  intro fwd
  induction fwd with
  | nil => intro k n _; simp [lazyEmit, allIsect]
  | cons p rest ih =>
    intro k n hnk
    obtain ⟨v, b⟩ := p
    unfold lazyEmit
    rw [bucketEmit_take _ k n hnk]
    rw [show allIsect docids ((v, b) :: rest) =
        b.filter (fun d => d ∈ docids) ++ allIsect docids rest from rfl]
    by_cases h2 : (b.filter (fun d => d ∈ docids)).length ≤ k - n
    · rw [if_pos h2]
      dsimp only
      have hn2 : n + (b.filter (fun d => d ∈ docids)).length ≤ k := by omega
      rw [List.take_of_length_le h2, ih k _ hn2]
      rw [List.take_append_eq_append_take, List.take_of_length_le h2]
      have h5 : k - (n + (b.filter (fun d => d ∈ docids)).length) =
          k - n - (b.filter (fun d => d ∈ docids)).length := by omega
      rw [h5]
    · rw [if_neg h2]
      dsimp only
      rw [List.take_append_eq_append_take]
      have h3 : k - n - (b.filter (fun d => d ∈ docids)).length = 0 := by omega
      rw [h3, List.take_zero, List.append_nil]

/-! ### Correctness of the inlined `heapq.nsmallest` loop -/

theorem insortR_append_le {α : Type} (le : α → α → Bool) :
    ∀ (l₁ l₂ : List α) (e : α), (∀ y ∈ l₁, le y e = true) →
      insortR le (l₁ ++ l₂) e = l₁ ++ insortR le l₂ e := by
  intro l₁
  induction l₁ with
  | nil => intro l₂ e _; rfl
  | cons x xs ih =>
    intro l₂ e h
    have hx : le x e = true := h x (List.mem_cons_self _ _)
    simp only [List.cons_append, insortR, if_pos hx, List.append_eq]
    rw [ih l₂ e (fun y hy => h y (List.mem_cons_of_mem _ hy))]

theorem insortR_append_gt {α : Type} (le : α → α → Bool) :
    ∀ (l₁ l₂ : List α) (e : α), (∃ y ∈ l₁, ¬ le y e = true) →
      insortR le (l₁ ++ l₂) e = insortR le l₁ e ++ l₂ := by
  intro l₁
  induction l₁ with
  | nil =>
    intro l₂ e h
    obtain ⟨y, hy, _⟩ := h
    simp at hy
  | cons x xs ih =>
    intro l₂ e h
    by_cases hx : le x e
    · simp only [List.cons_append, insortR, if_pos hx, List.append_eq]
      obtain ⟨y, hy, hyn⟩ := h
      rcases List.mem_cons.mp hy with rfl | hy'
      · exact absurd hx hyn
      · rw [ih l₂ e ⟨y, hy', hyn⟩]
    · simp only [List.cons_append, insortR, if_neg hx]
      rfl

theorem pairwise_all_le_getLast {α : Type} (le : α → α → Bool)
    (htrans : ∀ {a b c}, le a b = true → le b c = true → le a c = true)
    (hrefl : ∀ a, le a a = true) :
    ∀ (l : List α) (h : l ≠ []), l.Pairwise (fun a b => le a b = true) →
      ∀ y ∈ l, le y (l.getLast h) = true := by
  intro l
  induction l with
  | nil => intro h; exact absurd rfl h
  | cons x xs ih =>
    intro h hp y hy
    obtain ⟨hx, hxs⟩ := List.pairwise_cons.mp hp
    by_cases hxe : xs = []
    · subst hxe
      rcases List.mem_cons.mp hy with rfl | hy'
      · exact hrefl y
      · simp at hy'
    · rw [List.getLast_cons hxe]
      rcases List.mem_cons.mp hy with rfl | hy'
      · exact hx _ (List.getLast_mem hxe)
      · exact ih hxe hxs y hy'

theorem nbLoop_spec (k : Nat) (hk1 : 1 ≤ k) :
    ∀ (rest seen : List (Int × Int)), k ≤ seen.length →
      nbLoop ((pySorted pairLe seen).take k) rest =
        (pySorted pairLe (seen ++ rest)).take k := by
  intro rest
  induction rest with
  | nil =>
    intro seen _
    rw [List.append_nil]
    rfl
  | cons e rest ih =>
    intro seen hlen
    have hPlen : (pySorted pairLe seen).length = seen.length := pySorted_length _ _
    have hSlen : ((pySorted pairLe seen).take k).length = k := by
      rw [List.length_take]
      omega
    have hSne : (pySorted pairLe seen).take k ≠ [] := by
      intro hc
      rw [hc] at hSlen
      simp at hSlen
      omega
    have hPp : (pySorted pairLe seen).Pairwise (fun a b => pairLe a b = true) :=
      pySorted_pairwise pairLe pairLe_total (fun h1 h2 => pairLe_trans h1 h2) _
    have hSp : ((pySorted pairLe seen).take k).Pairwise
        (fun a b => pairLe a b = true) :=
      hPp.sublist (List.take_sublist _ _)
    have hgl : ((pySorted pairLe seen).take k).getLast? =
        some (((pySorted pairLe seen).take k).getLast hSne) :=
      List.getLast?_eq_getLast _ hSne
    have hsplit : pySorted pairLe seen =
        (pySorted pairLe seen).take k ++ (pySorted pairLe seen).drop k :=
      (List.take_append_drop k _).symm
    have happ : pySorted pairLe (seen ++ [e]) =
        insortR pairLe (pySorted pairLe seen) e := pySorted_append pairLe seen e
    have hlen' : k ≤ (seen ++ [e]).length := by
      simp only [List.length_append, List.length_cons]
      omega
    have hstep : seen ++ e :: rest = (seen ++ [e]) ++ rest := by simp
    show nbLoop ((pySorted pairLe seen).take k) (e :: rest) = _
    rw [show nbLoop ((pySorted pairLe seen).take k) (e :: rest) =
        (match ((pySorted pairLe seen).take k).getLast? with
         | none => (pySorted pairLe seen).take k
         | some los =>
           if pairLe los e then nbLoop ((pySorted pairLe seen).take k) rest
           else nbLoop ((insortR pairLe ((pySorted pairLe seen).take k) e).dropLast)
             rest) from rfl]
    rw [hgl]
    dsimp only
    by_cases hle : pairLe (((pySorted pairLe seen).take k).getLast hSne) e
    · rw [if_pos hle]
      have hally : ∀ y ∈ (pySorted pairLe seen).take k, pairLe y e = true := by
        intro y hy
        exact pairLe_trans
          (pairwise_all_le_getLast pairLe pairLe_trans pairLe_refl _ hSne hSp y hy)
          hle
      have hX : (pySorted pairLe seen).take k =
          (pySorted pairLe (seen ++ [e])).take k := by
        rw [happ]
        conv_rhs => rw [hsplit]
        rw [insortR_append_le pairLe _ _ e hally]
        rw [List.take_append_of_le_length hSlen.symm.le,
          List.take_of_length_le hSlen.le]
      rw [hX, hstep]
      exact ih (seen ++ [e]) hlen'
    · rw [if_neg hle]
      have hX : (insortR pairLe ((pySorted pairLe seen).take k) e).dropLast =
          (pySorted pairLe (seen ++ [e])).take k := by
        rw [happ]
        conv_rhs => rw [hsplit]
        rw [insortR_append_gt pairLe _ _ e
          ⟨((pySorted pairLe seen).take k).getLast hSne, List.getLast_mem hSne, hle⟩]
        rw [List.take_append_of_le_length
          (show k ≤ (insortR pairLe ((pySorted pairLe seen).take k) e).length by
            rw [insortR_length, hSlen]
            omega)]
        rw [List.dropLast_eq_take, insortR_length, hSlen]
        simp
      rw [hX, hstep]
      exact ih (seen ++ [e]) hlen'

theorem nbest_asc_eq (k : Nat) (hk1 : 1 ≤ k) (pairs : List (Int × Int)) :
    nbLoop (pySorted pairLe (pairs.take k)) (pairs.drop k) =
      (pySorted pairLe pairs).take k := by
  by_cases hlen : pairs.length ≤ k
  · rw [List.take_of_length_le hlen, List.drop_eq_nil_of_le hlen]
    rw [show nbLoop (pySorted pairLe pairs) [] = pySorted pairLe pairs from rfl]
    rw [List.take_of_length_le (by rw [pySorted_length]; exact hlen)]
  · have hlt : k < pairs.length := lt_of_not_ge hlen
    have h0 : pySorted pairLe (pairs.take k) =
        (pySorted pairLe (pairs.take k)).take k := by
      refine (List.take_of_length_le ?_).symm
      rw [pySorted_length, List.length_take]
      omega
    rw [h0, nbLoop_spec k hk1 (pairs.drop k) (pairs.take k)
      (by rw [List.length_take]; omega), List.take_append_drop]

/-! ### The strategies produce the same value-sorted id list -/

theorem presentPairs_map_snd (s : FieldState) :
    ∀ (docids : List Int),
      (presentPairs s docids).map Prod.snd = presentIds s docids := by
  intro docids
  induction docids with
  | nil => rfl
  | cons d ds ih =>
    unfold presentPairs presentIds at ih ⊢
    rw [List.filterMap_cons, List.filter_cons]
    cases hd : aget s.rev d with
    | none => simpa [hd] using ih
    | some v => simpa [hd] using ih

theorem presentPairs_mem (s : FieldState) :
    ∀ (docids : List Int), ∀ p ∈ presentPairs s docids,
      aget s.rev p.2 = some p.1 ∧ p.2 ∈ docids := by
  intro docids
  induction docids with
  | nil => intro p hp; simp [presentPairs] at hp
  | cons d ds ih =>
    intro p hp
    unfold presentPairs at hp
    rw [List.filterMap_cons] at hp
    cases hd : aget s.rev d with
    | none =>
      rw [hd] at hp
      obtain ⟨h1, h2⟩ := ih p hp
      exact ⟨h1, List.mem_cons_of_mem _ h2⟩
    | some v =>
      rw [hd] at hp
      rcases List.mem_cons.mp hp with rfl | hp'
      · exact ⟨hd, List.mem_cons_self _ _⟩
      · obtain ⟨h1, h2⟩ := ih p hp'
        exact ⟨h1, List.mem_cons_of_mem _ h2⟩

theorem presentPairs_nodup (s : FieldState) {docids : List Int}
    (h : docids.Nodup) : (presentPairs s docids).Nodup := by
  unfold presentPairs
  refine h.filterMap ?_
  intro a a' b hb hb'
  cases ha : aget s.rev a with
  | none => rw [ha] at hb; simp at hb
  | some v =>
    rw [ha] at hb
    cases ha' : aget s.rev a' with
    | none => rw [ha'] at hb'; simp at hb'
    | some v' =>
      rw [ha'] at hb'
      simp only [Option.mem_def, Option.map_some', Option.some.injEq] at hb hb'
      rw [← hb'] at hb
      exact congrArg Prod.snd hb

theorem strict_nodup {α : Type} {key : α → Int} {l : List α}
    (h : l.Pairwise (fun a b => key a < key b)) : l.Nodup :=
  h.imp (fun hab => by
    intro hc
    subst hc
    omega)

theorem canonAsc_strict (s : FieldState) (docids : List Int)
    (hdist : DistinctValues s docids) (hnd : docids.Nodup) :
    ((pySorted pairLe (presentPairs s docids)).map Prod.snd).Pairwise
      (fun a b => keyval s a < keyval s b) := by
  rw [List.pairwise_map]
  have hpw : (pySorted pairLe (presentPairs s docids)).Pairwise
      (fun a b => pairLe a b = true) :=
    pySorted_pairwise pairLe pairLe_total (fun h1 h2 => pairLe_trans h1 h2) _
  have hnd2 : (pySorted pairLe (presentPairs s docids)).Nodup :=
    (pySorted_perm _ _).symm.nodup (presentPairs_nodup s hnd)
  refine (hpw.and hnd2).imp_of_mem ?_
  intro p q hp hq hpq
  obtain ⟨hle, hne⟩ := hpq
  have hp' := presentPairs_mem s docids p ((pySorted_perm _ _).mem_iff.mp hp)
  have hq' := presentPairs_mem s docids q ((pySorted_perm _ _).mem_iff.mp hq)
  have hkp : keyval s p.2 = p.1 := by unfold keyval; rw [hp'.1]; rfl
  have hkq : keyval s q.2 = q.1 := by unfold keyval; rw [hq'.1]; rfl
  rw [hkp, hkq]
  simp only [pairLe, Bool.or_eq_true, Bool.and_eq_true, decide_eq_true_eq] at hle
  rcases hle with h | ⟨h1, h2⟩
  · exact h
  · exfalso
    apply hne
    have : p.2 = q.2 := by
      refine hdist p.2 hp'.2 q.2 hq'.2 (by rw [hp'.1]; rfl) ?_
      rw [hp'.1, hq'.1, h1]
    have hv : p.1 = q.1 := h1
    calc p = (p.1, p.2) := rfl
      _ = (q.1, q.2) := by rw [this, hv]
      _ = q := rfl

theorem canonDesc_strict (s : FieldState) (docids : List Int)
    (hdist : DistinctValues s docids) (hnd : docids.Nodup) :
    ((pySorted (fun a b => pairLe b a) (presentPairs s docids)).map Prod.snd).Pairwise
      (fun a b => keyval s b < keyval s a) := by
  rw [List.pairwise_map]
  have hpw : (pySorted (fun a b => pairLe b a) (presentPairs s docids)).Pairwise
      (fun a b => pairLe b a = true) :=
    pySorted_pairwise (fun a b => pairLe b a) (fun a b => pairLe_total b a)
      (fun {a b c} h1 h2 => pairLe_trans h2 h1) _
  have hnd2 : (pySorted (fun a b => pairLe b a) (presentPairs s docids)).Nodup :=
    (pySorted_perm _ _).symm.nodup (presentPairs_nodup s hnd)
  refine (hpw.and hnd2).imp_of_mem ?_
  intro p q hp hq hpq
  obtain ⟨hle, hne⟩ := hpq
  have hp' := presentPairs_mem s docids p ((pySorted_perm _ _).mem_iff.mp hp)
  have hq' := presentPairs_mem s docids q ((pySorted_perm _ _).mem_iff.mp hq)
  have hkp : keyval s p.2 = p.1 := by unfold keyval; rw [hp'.1]; rfl
  have hkq : keyval s q.2 = q.1 := by unfold keyval; rw [hq'.1]; rfl
  rw [hkp, hkq]
  simp only [pairLe, Bool.or_eq_true, Bool.and_eq_true, decide_eq_true_eq] at hle
  rcases hle with h | ⟨h1, h2⟩
  · exact h
  · exfalso
    apply hne
    have : q.2 = p.2 := by
      refine hdist q.2 hq'.2 p.2 hp'.2 (by rw [hq'.1]; rfl) ?_
      rw [hp'.1, hq'.1, h1]
    have hv : q.1 = p.1 := h1
    calc p = (p.1, p.2) := rfl
      _ = (q.1, q.2) := by rw [this, hv]
      _ = q := rfl

theorem canonAsc_perm (s : FieldState) (docids : List Int) :
    ((pySorted pairLe (presentPairs s docids)).map Prod.snd).Perm
      (presentIds s docids) := by
  rw [← presentPairs_map_snd s docids]
  exact (pySorted_perm _ _).map Prod.snd

theorem canonDesc_perm (s : FieldState) (docids : List Int) :
    ((pySorted (fun a b => pairLe b a) (presentPairs s docids)).map Prod.snd).Perm
      (presentIds s docids) := by
  rw [← presentPairs_map_snd s docids]
  exact (pySorted_perm _ _).map Prod.snd

theorem keyval_asym (s : FieldState) :
    ∀ a b : Int, keyval s a < keyval s b → ¬ keyval s b < keyval s a := by
  intro a b h1 h2
  omega

theorem full_filter_eq_asc (s : FieldState) (docids : List Int)
    (hchain : docids.Pairwise (fun a b : Int => a < b))
    (hdist : DistinctValues s docids) :
    (pySorted (fun a b => okeyLe (aget s.rev a) (aget s.rev b)) docids).filter
        (fun d => (aget s.rev d).isSome) =
      (pySorted pairLe (presentPairs s docids)).map Prod.snd := by
  have hnd : docids.Nodup := hchain.imp (fun h => by omega)
  refine eq_of_perm_of_strict (fun a b => keyval s a < keyval s b) (keyval_asym s)
    _ _ ?_ ?_ (canonAsc_strict s docids hdist hnd)
  · exact ((pySorted_perm _ docids).filter _).trans (canonAsc_perm s docids).symm
  · have hpwL : (pySorted (fun a b => okeyLe (aget s.rev a) (aget s.rev b))
        docids).Pairwise (fun a b => okeyLe (aget s.rev a) (aget s.rev b) = true) :=
      pySorted_pairwise (fun a b => okeyLe (aget s.rev a) (aget s.rev b))
        (fun a b => okeyLe_total (aget s.rev a) (aget s.rev b))
        (fun {a b c} h1 h2 => okeyLe_trans h1 h2) docids
    have hndL : ((pySorted (fun a b => okeyLe (aget s.rev a) (aget s.rev b))
        docids).filter (fun d => (aget s.rev d).isSome)).Nodup :=
      ((pySorted_perm _ docids).symm.nodup hnd).filter _
    have hpwF : ((pySorted (fun a b => okeyLe (aget s.rev a) (aget s.rev b))
        docids).filter (fun d => (aget s.rev d).isSome)).Pairwise
        (fun a b => okeyLe (aget s.rev a) (aget s.rev b) = true) :=
      hpwL.sublist (List.filter_sublist _)
    refine (hpwF.and hndL).imp_of_mem ?_
    intro a b ha hb hab
    obtain ⟨hle, hne⟩ := hab
    obtain ⟨ha1, ha2⟩ := List.mem_filter.mp ha
    obtain ⟨hb1, hb2⟩ := List.mem_filter.mp hb
    obtain ⟨va, hva⟩ := Option.isSome_iff_exists.mp ha2
    obtain ⟨vb, hvb⟩ := Option.isSome_iff_exists.mp hb2
    have had : a ∈ docids := (pySorted_perm _ docids).mem_iff.mp ha1
    have hbd : b ∈ docids := (pySorted_perm _ docids).mem_iff.mp hb1
    rw [hva, hvb] at hle
    simp only [okeyLe, decide_eq_true_eq] at hle
    have hvne : va ≠ vb := by
      intro hc
      apply hne
      exact hdist a had b hbd (by rw [hva]; rfl) (by rw [hva, hvb, hc])
    unfold keyval
    rw [hva, hvb]
    simp only [Option.getD_some]
    omega

theorem full_filter_eq_desc (s : FieldState) (docids : List Int)
    (hchain : docids.Pairwise (fun a b : Int => a < b))
    (hdist : DistinctValues s docids) :
    (pySorted (fun a b => okeyLe (aget s.rev b) (aget s.rev a)) docids).filter
        (fun d => (aget s.rev d).isSome) =
      (pySorted (fun a b => pairLe b a) (presentPairs s docids)).map Prod.snd := by
  have hnd : docids.Nodup := hchain.imp (fun h => by omega)
  refine eq_of_perm_of_strict (fun a b => keyval s b < keyval s a)
    (fun a b h1 h2 => by omega)
    _ _ ?_ ?_ (canonDesc_strict s docids hdist hnd)
  · exact ((pySorted_perm _ docids).filter _).trans (canonDesc_perm s docids).symm
  · have hpwL : (pySorted (fun a b => okeyLe (aget s.rev b) (aget s.rev a))
        docids).Pairwise (fun a b => okeyLe (aget s.rev b) (aget s.rev a) = true) :=
      pySorted_pairwise (fun a b => okeyLe (aget s.rev b) (aget s.rev a))
        (fun a b => okeyLe_total (aget s.rev b) (aget s.rev a))
        (fun {a b c} h1 h2 => okeyLe_trans h2 h1) docids
    have hndL : ((pySorted (fun a b => okeyLe (aget s.rev b) (aget s.rev a))
        docids).filter (fun d => (aget s.rev d).isSome)).Nodup :=
      ((pySorted_perm _ docids).symm.nodup hnd).filter _
    have hpwF : ((pySorted (fun a b => okeyLe (aget s.rev b) (aget s.rev a))
        docids).filter (fun d => (aget s.rev d).isSome)).Pairwise
        (fun a b => okeyLe (aget s.rev b) (aget s.rev a) = true) :=
      hpwL.sublist (List.filter_sublist _)
    refine (hpwF.and hndL).imp_of_mem ?_
    intro a b ha hb hab
    obtain ⟨hle, hne⟩ := hab
    obtain ⟨ha1, ha2⟩ := List.mem_filter.mp ha
    obtain ⟨hb1, hb2⟩ := List.mem_filter.mp hb
    obtain ⟨va, hva⟩ := Option.isSome_iff_exists.mp ha2
    obtain ⟨vb, hvb⟩ := Option.isSome_iff_exists.mp hb2
    have had : a ∈ docids := (pySorted_perm _ docids).mem_iff.mp ha1
    have hbd : b ∈ docids := (pySorted_perm _ docids).mem_iff.mp hb1
    rw [hva, hvb] at hle
    simp only [okeyLe, decide_eq_true_eq] at hle
    have hvne : va ≠ vb := by
      intro hc
      apply hne
      exact hdist a had b hbd (by rw [hva]; rfl) (by rw [hva, hvb, hc])
    unfold keyval
    rw [hva, hvb]
    simp only [Option.getD_some]
    omega

theorem allIsect_mem (docids : List Int) :
    ∀ (fwd : List (Int × List Int)) (x : Int),
      x ∈ allIsect docids fwd ↔ ∃ p ∈ fwd, x ∈ p.2 ∧ x ∈ docids := by
  intro fwd x
  induction fwd with
  | nil => simp [allIsect]
  | cons p rest ih =>
    obtain ⟨v, b⟩ := p
    rw [show allIsect docids ((v, b) :: rest) =
        b.filter (fun d => d ∈ docids) ++ allIsect docids rest from rfl]
    rw [List.mem_append, List.mem_filter, ih]
    constructor
    · rintro (⟨h1, h2⟩ | ⟨q, hq, h1, h2⟩)
      · exact ⟨(v, b), List.mem_cons_self _ _, h1, by simpa using h2⟩
      · exact ⟨q, List.mem_cons_of_mem _ hq, h1, h2⟩
    · rintro ⟨q, hq, h1, h2⟩
      rcases List.mem_cons.mp hq with rfl | hq'
      · exact Or.inl ⟨h1, by simpa using h2⟩
      · exact Or.inr ⟨q, hq', h1, h2⟩

theorem pairwise_of_all_eq {α : Type} {R : α → α → Prop} :
    ∀ {l : List α}, l.Nodup → (∀ a ∈ l, ∀ b ∈ l, a = b) → l.Pairwise R := by
  intro l hnd hall
  cases l with
  | nil => exact List.Pairwise.nil
  | cons x xs =>
    cases xs with
    | nil => simp
    | cons y ys =>
      exfalso
      have hxy : x = y := hall x (by simp) y (by simp)
      have h := List.pairwise_cons.mp hnd
      exact (h.1 y (by simp)) hxy

theorem allIsect_pairwise (s : FieldState) (docids : List Int)
    (hdist : DistinctValues s docids) :
    ∀ (fwd : List (Int × List Int)), SortedKeys fwd →
      (∀ p ∈ fwd, p.2.Pairwise (fun a b : Int => a < b)) →
      (∀ p ∈ fwd, ∀ x ∈ p.2, aget s.rev x = some p.1) →
      (allIsect docids fwd).Pairwise (fun a b => keyval s a < keyval s b) := by
  intro fwd
  induction fwd with
  | nil => intro _ _ _; exact List.Pairwise.nil
  | cons p rest ih =>
    intro hs hb hcf
    obtain ⟨v, b⟩ := p
    obtain ⟨hvk, hrest⟩ := List.pairwise_cons.mp hs
    rw [show allIsect docids ((v, b) :: rest) =
        b.filter (fun d => d ∈ docids) ++ allIsect docids rest from rfl]
    rw [List.pairwise_append]
    refine ⟨?_, ih hrest (fun q hq => hb q (List.mem_cons_of_mem _ hq))
      (fun q hq => hcf q (List.mem_cons_of_mem _ hq)), ?_⟩
    · have hbs : b.Pairwise (fun a b : Int => a < b) :=
        hb (v, b) (List.mem_cons_self _ _)
      have hfs : (b.filter (fun d => d ∈ docids)).Pairwise (fun a b : Int => a < b) :=
        hbs.sublist (List.filter_sublist _)
      refine pairwise_of_all_eq (hfs.imp (fun h => by omega)) ?_
      intro a ha c hc
      obtain ⟨ha1, ha2⟩ := List.mem_filter.mp ha
      obtain ⟨hc1, hc2⟩ := List.mem_filter.mp hc
      exact hdist a (by simpa using ha2) c (by simpa using hc2)
        (by rw [hcf (v, b) (List.mem_cons_self _ _) a ha1]; rfl)
        (by rw [hcf (v, b) (List.mem_cons_self _ _) a ha1,
              hcf (v, b) (List.mem_cons_self _ _) c hc1])
    · intro a ha c hc
      obtain ⟨ha1, _⟩ := List.mem_filter.mp ha
      have hva : aget s.rev a = some v :=
        hcf (v, b) (List.mem_cons_self _ _) a ha1
      obtain ⟨q, hq, hcq, _⟩ := (allIsect_mem docids rest c).mp hc
      have hvc : aget s.rev c = some q.1 :=
        hcf q (List.mem_cons_of_mem _ hq) c hcq
      have hlt : v < q.1 := hvk q hq
      unfold keyval
      rw [hva, hvc]
      simpa using hlt

theorem lazy_eq_canon_asc (s : FieldState) (docids : List Int)
    (hw : WFS s) (hcf : ConsFwd s) (hcr : ConsRev s)
    (hchain : docids.Pairwise (fun a b : Int => a < b))
    (hdist : DistinctValues s docids) :
    allIsect docids s.fwd =
      (pySorted pairLe (presentPairs s docids)).map Prod.snd := by
  obtain ⟨hfs, hrs, hbk⟩ := hw
  have hnd : docids.Nodup := hchain.imp (fun h => by omega)
  have hstrictL := allIsect_pairwise s docids hdist s.fwd hfs
    (fun p hp => (hbk p hp).1) hcf
  have hstrictR := canonAsc_strict s docids hdist hnd
  have hndL : (allIsect docids s.fwd).Nodup :=
    hstrictL.imp (fun h hc => by rw [hc] at h; omega)
  have hndR : ((pySorted pairLe (presentPairs s docids)).map Prod.snd).Nodup :=
    hstrictR.imp (fun h hc => by rw [hc] at h; omega)
  have hmem : ∀ x, x ∈ allIsect docids s.fwd ↔
      x ∈ (pySorted pairLe (presentPairs s docids)).map Prod.snd := by
    intro x
    rw [allIsect_mem, (canonAsc_perm s docids).mem_iff]
    unfold presentIds
    rw [List.mem_filter]
    constructor
    · rintro ⟨p, hp, hxp, hxd⟩
      refine ⟨hxd, ?_⟩
      rw [hcf p hp x hxp]
      rfl
    · rintro ⟨hxd, hsome⟩
      obtain ⟨vx, hvx⟩ := Option.isSome_iff_exists.mp hsome
      obtain ⟨p, hp, hp1, hxp⟩ := hcr (x, vx) (aget_mem hvx)
      exact ⟨p, hp, hxp, hxd⟩
  exact eq_of_perm_of_strict _ (keyval_asym s) _ _
    ((List.perm_ext_iff_of_nodup hndL hndR).mpr hmem) hstrictL hstrictR

theorem map_emit_comp (l : List (Int × Int)) :
    (l.map (fun p => p.2)).map Emit.id = l.map (fun p => Emit.id p.2) := by
  rw [List.map_map]
  rfl

theorem fieldSortMain_eq_canonical (s : FieldState) (docids : List Int)
    (reverse : Bool) (limitN : Option Nat)
    (hw : WFS s) (hcount : CountOK s) (hcf : ConsFwd s) (hcr : ConsRev s)
    (hchain : docids.Pairwise (fun a b : Int => a < b))
    (hdist : DistinctValues s docids)
    (hpres : presentIds s docids ≠ [])
    (hlim : ∀ k, limitN = some k → 1 ≤ k)
    (oL oN : Bool)
    (hnb : limitN = none → oN = true → reverse = false) :
    fieldSortMain s oL oN docids reverse limitN =
      ⟨(canonicalSort s docids reverse limitN).map Emit.id, none⟩ := by
  have hdocne : docids.isEmpty = false := by
    cases docids with
    | nil => exact absurd rfl hpres
    | cons _ _ => rfl
  have hrevne : s.rev ≠ [] := by
    cases hpd : presentIds s docids with
    | nil => exact absurd hpd hpres
    | cons d rest =>
      have hd : d ∈ presentIds s docids := by
        rw [hpd]
        exact List.mem_cons_self _ _
      obtain ⟨hd1, hd2⟩ := List.mem_filter.mp hd
      obtain ⟨v, hv⟩ := Option.isSome_iff_exists.mp hd2
      intro hc
      rw [hc] at hv
      simp [aget] at hv
  have hnum : ¬ s.numDocs = 0 := by
    unfold CountOK at hcount
    intro hc
    rw [hc] at hcount
    have hlen : s.rev.length = 0 := by omega
    exact hrevne (List.length_eq_zero.mp hlen)
  have hpairsne : presentPairs s docids ≠ [] := by
    intro hc
    apply hpres
    rw [← presentPairs_map_snd, hc]
    rfl
  have hppd : docids.filterMap (fun d => (aget s.rev d).map (fun v => (v, d))) =
      presentPairs s docids := rfl
  unfold fieldSortMain
  simp only [hdocne, Bool.false_eq_true, if_false]
  rw [if_neg hnum]
  rw [hppd]
  split
  · -- n-best strategy
    rename_i hnbt
    cases reverse with
    | true =>
      simp only [if_true]
      cases limitN with
      | none =>
        have hoN : oN = true := by simpa using hnbt
        exact absurd (hnb rfl hoN) (by simp)
      | some k =>
        dsimp only
        unfold canonicalSort
        rw [hppd]
        simp only [if_true]
        rw [map_emit_comp]
        rfl
    | false =>
      simp only [Bool.false_eq_true, if_false]
      have htne : takeOpt limitN (presentPairs s docids) ≠ [] := by
        cases limitN with
        | none => exact hpairsne
        | some k =>
          have hk := hlim k rfl
          show (presentPairs s docids).take k ≠ []
          rw [ne_eq, List.take_eq_nil_iff]
          push_neg
          exact ⟨by omega, hpairsne⟩
      have hresne : (pySorted pairLe (takeOpt limitN (presentPairs s docids))).isEmpty
          = false := by
        rw [List.isEmpty_eq_false]
        intro hc
        apply htne
        have := pySorted_length pairLe (takeOpt limitN (presentPairs s docids))
        rw [hc] at this
        exact List.length_eq_zero.mp this.symm
      simp only [hresne, Bool.false_eq_true, if_false]
      unfold canonicalSort
      rw [hppd]
      simp only [Bool.false_eq_true, if_false]
      rw [map_emit_comp]
      cases limitN with
      | none => rfl
      | some k =>
        have hk := hlim k rfl
        show SortRes.mk ((nbLoop (pySorted pairLe ((presentPairs s docids).take k))
            ((presentPairs s docids).drop k)).map (fun p => Emit.id p.2)) none = _
        rw [nbest_asc_eq k hk]
        rfl
  · split
    · -- lazy-ascending strategy
      rename_i hnb hlz
      have hrev : reverse = false := by
        cases reverse with
        | false => rfl
        | true => simp at hlz
      subst hrev
      have hlazy : lazyEmit docids limitN 0 s.fwd =
          takeOpt limitN (allIsect docids s.fwd) := by
        cases limitN with
        | none => exact lazyEmit_none docids s.fwd 0
        | some k =>
          rw [lazyEmit_take docids s.fwd k 0 (Nat.zero_le k)]
          rw [Nat.sub_zero]
          rfl
      rw [hlazy, lazy_eq_canon_asc s docids hw hcf hcr hchain hdist]
      unfold canonicalSort
      rw [hppd]
      simp only [Bool.false_eq_true, if_false]
      have hcomm : takeOpt limitN
            ((pySorted pairLe (presentPairs s docids)).map Prod.snd) =
          (takeOpt limitN (pySorted pairLe (presentPairs s docids))).map
            (fun p => p.2) := by
        cases limitN with
        | none => rfl
        | some k => exact (List.map_take Prod.snd (pySorted pairLe (presentPairs s docids)) k).symm
      rw [hcomm]
    · -- full-sort strategy
      cases reverse with
      | false =>
        simp only [Bool.false_eq_true, if_false]
        have hfull : fullEmit s.rev limitN 0
            (pySorted (fun a b => okeyLe (aget s.rev a) (aget s.rev b)) docids) =
            takeOpt limitN
              ((pySorted (fun a b => okeyLe (aget s.rev a) (aget s.rev b))
                docids).filter (fun d => (aget s.rev d).isSome)) := by
          cases limitN with
          | none => exact fullEmit_none s.rev _ 0
          | some k =>
            rw [fullEmit_take s.rev _ k 0 (Nat.zero_le k), Nat.sub_zero]
            rfl
        rw [hfull, full_filter_eq_asc s docids hchain hdist]
        unfold canonicalSort
        rw [hppd]
        simp only [Bool.false_eq_true, if_false]
        have hcomm : takeOpt limitN
              ((pySorted pairLe (presentPairs s docids)).map Prod.snd) =
            (takeOpt limitN (pySorted pairLe (presentPairs s docids))).map
              (fun p => p.2) := by
          cases limitN with
          | none => rfl
          | some k => exact (List.map_take Prod.snd (pySorted pairLe (presentPairs s docids)) k).symm
        rw [hcomm]
      | true =>
        simp only [if_true]
        have hfull : fullEmit s.rev limitN 0
            (pySorted (fun a b => okeyLe (aget s.rev b) (aget s.rev a)) docids) =
            takeOpt limitN
              ((pySorted (fun a b => okeyLe (aget s.rev b) (aget s.rev a))
                docids).filter (fun d => (aget s.rev d).isSome)) := by
          cases limitN with
          | none => exact fullEmit_none s.rev _ 0
          | some k =>
            rw [fullEmit_take s.rev _ k 0 (Nat.zero_le k), Nat.sub_zero]
            rfl
        rw [hfull, full_filter_eq_desc s docids hchain hdist]
        unfold canonicalSort
        rw [hppd]
        simp only [if_true]
        have hcomm : takeOpt limitN
              ((pySorted (fun a b => pairLe b a) (presentPairs s docids)).map
                Prod.snd) =
            (takeOpt limitN (pySorted (fun a b => pairLe b a)
              (presentPairs s docids))).map (fun p => p.2) := by
          cases limitN with
          | none => rfl
          | some k =>
            exact (List.map_take Prod.snd
              (pySorted (fun a b => pairLe b a) (presentPairs s docids)) k).symm
        rw [hcomm]

/-- The forced n-best strategy under `reverse` with no limit reaches
`heapq.nlargest(None, iterable)` (source line 131), whose count argument
must be an integer: the first pull raises `TypeError` and nothing is
emitted. -/
theorem nbest_reverse_nolimit_typeerror (s : FieldState) (docids : List Int)
    (oL : Bool) (hdoc : docids ≠ []) (hnum : s.numDocs ≠ 0) :
    fieldSort s oL true docids true none =
      ⟨[], some "TypeError: an integer is required"⟩ := by
  have hdocne : docids.isEmpty = false := by
    cases docids with
    | nil => exact absurd rfl hdoc
    | cons _ _ => rfl
  unfold fieldSort fieldSortMain
  simp only [hdocne, Bool.false_eq_true, if_false]
  rw [if_neg hnum]
  simp only [Bool.or_true, if_true]

/-- C1 (amended): on a well-formed, consistent field index, when the
candidate set is an ascending duplicate-free id set, at least one
candidate is present in the index, the present candidates' indexed
values are pairwise distinct, and the limit (if any) is at least 1, then
every strategy selection — the natural heuristics and both test-only
overrides — emits exactly the candidates present in the reverse index,
sorted by indexed value (descending when `reverse`), truncated to the
limit, with no error, except that forcing n-best together with `reverse`
and an absent limit calls `heapq.nlargest` with a `None` count, which
raises `TypeError` with nothing emitted. -/
theorem c1_sort_strategy_equivalence (s : FieldState) (docids : List Int)
    (reverse : Bool) (limit : Option Int)
    (hw : WFS s) (hcount : CountOK s) (hcf : ConsFwd s) (hcr : ConsRev s)
    (hchain : docids.Pairwise (fun a b : Int => a < b))
    (hdist : DistinctValues s docids)
    (hpres : presentIds s docids ≠ [])
    (hlim : ∀ l, limit = some l → 1 ≤ l) :
    (∀ (useLazyOv useNbestOv : Bool),
      (limit = none → useNbestOv = true → reverse = false) →
      fieldSort s useLazyOv useNbestOv docids reverse limit =
        ⟨(canonicalSort s docids reverse (limit.map Int.toNat)).map Emit.id, none⟩) ∧
    (∀ useLazyOv : Bool,
      fieldSort s useLazyOv true docids true none =
        ⟨[], some "TypeError: an integer is required"⟩) := by
  have hdoc : docids ≠ [] := by
    intro hc
    apply hpres
    rw [hc]
    rfl
  have hrevne : s.rev ≠ [] := by
    cases hpd : presentIds s docids with
    | nil => exact absurd hpd hpres
    | cons d rest =>
      have hd : d ∈ presentIds s docids := by
        rw [hpd]
        exact List.mem_cons_self _ _
      obtain ⟨hd1, hd2⟩ := List.mem_filter.mp hd
      obtain ⟨v, hv⟩ := Option.isSome_iff_exists.mp hd2
      intro hc
      rw [hc] at hv
      simp [aget] at hv
  have hnum : s.numDocs ≠ 0 := by
    unfold CountOK at hcount
    intro hc
    rw [hc] at hcount
    have hlen : s.rev.length = 0 := by omega
    exact hrevne (List.length_eq_zero.mp hlen)
  refine ⟨?_, fun oL => nbest_reverse_nolimit_typeerror s docids oL hdoc hnum⟩
  intro oL oN hguard
  cases limit with
  | none =>
    exact fieldSortMain_eq_canonical s docids reverse none hw hcount hcf hcr hchain
      hdist hpres (fun k hk => by cases hk) oL oN (fun _ h2 => hguard rfl h2)
  | some l =>
    have hl : 1 ≤ l := hlim l rfl
    unfold fieldSort
    dsimp only
    rw [if_neg (by omega)]
    exact fieldSortMain_eq_canonical s docids reverse (some l.toNat) hw hcount hcf hcr
      hchain hdist hpres (fun k hk => by injection hk with h; omega) oL oN
      (fun hc => nomatch hc)

/-- Counterexample to C1 as stated.  First: on the index holding two
documents with the same value, a reverse sort with limit 1 emits `[1]`
under the full-sort strategy but `[2]` under the forced n-best strategy
— the emitted sets differ.  Second: on the index holding only document
1, candidates `[5]` (none present), the forced n-best ascending path
emits the `StopIteration` marker and raises `IndexError`, while the
unforced run emits nothing. -/
theorem c1_counterexample :
    (fieldSort tieIdx false false [1, 2] true (some 1) = ⟨[.id 1], none⟩ ∧
     fieldSort tieIdx false true [1, 2] true (some 1) = ⟨[.id 2], none⟩ ∧
     ([Emit.id 1] : List Emit) ≠ [Emit.id 2]) ∧
    (fieldSort bugIdx false true [5] false none = ⟨[.stopExc], some "IndexError"⟩ ∧
     fieldSort bugIdx false false [5] false none = ⟨[], none⟩) := by
  exact ⟨⟨by decide, by decide, by decide⟩, by decide, by decide⟩

/-- Witness for C1's amended statement on the spec's Example 1 index:
the strategy forced to lazy-ascending and to n-best both emit the
canonical result, and the forced n-best + reverse + no-limit corner
raises `TypeError`. -/
theorem c1_witness :
    WFS exIdx ∧ CountOK exIdx ∧ ConsFwd exIdx ∧ ConsRev exIdx ∧
    DistinctValues exIdx [1, 2, 3] ∧ presentIds exIdx [1, 2, 3] ≠ [] ∧
    fieldSort exIdx true false [1, 2, 3] false (some 2) =
      ⟨(canonicalSort exIdx [1, 2, 3] false
          ((some (2 : Int)).map Int.toNat)).map Emit.id, none⟩ ∧
    fieldSort exIdx false true [1, 2, 3] false (some 2) =
      ⟨(canonicalSort exIdx [1, 2, 3] false
          ((some (2 : Int)).map Int.toNat)).map Emit.id, none⟩ ∧
    fieldSort exIdx false true [1, 2, 3] true none =
      ⟨[], some "TypeError: an integer is required"⟩ ∧
    (canonicalSort exIdx [1, 2, 3] false
        ((some (2 : Int)).map Int.toNat)).map Emit.id = [.id 2, .id 1] :=
  ⟨by decide, by decide, by decide, by decide, by decide, by decide,
   (c1_sort_strategy_equivalence exIdx [1, 2, 3] false (some 2) (by decide) (by decide)
     (by decide) (by decide) (by decide) (by decide) (by decide)
     (fun l hl => by injection hl with h; omega)).1 true false (fun hc => nomatch hc),
   (c1_sort_strategy_equivalence exIdx [1, 2, 3] false (some 2) (by decide) (by decide)
     (by decide) (by decide) (by decide) (by decide) (by decide)
     (fun l hl => by injection hl with h; omega)).1 false true (fun hc => nomatch hc),
   (c1_sort_strategy_equivalence exIdx [1, 2, 3] false (some 2) (by decide) (by decide)
     (by decide) (by decide) (by decide) (by decide) (by decide)
     (fun l hl => by injection hl with h; omega)).2 false,
   by decide⟩

/-! ### C4: query-order independence of searchResults -/

/-- When every name is registered and some sub-query result is empty,
the per-index loop short-circuits with the empty set. -/
theorem srLoop_inl (cat : Catalog) :
    ∀ (query : List (String × Int)), validNames cat query →
      hasEmptyRes cat query → srLoop cat query = .ok (.inl []) := by
  intro query
  induction query with
  | nil =>
    intro _ he
    obtain ⟨p, hp, _⟩ := he
    exact absurd hp (List.not_mem_nil p)
  | cons hd rest ih =>
    obtain ⟨nm, sq⟩ := hd
    intro hv he
    have hhead := hv (nm, sq) (List.mem_cons_self _ _)
    obtain ⟨idx, hidx⟩ := Option.isSome_iff_exists.mp hhead
    have hvr : validNames cat rest := fun p hp => hv p (List.mem_cons_of_mem _ hp)
    simp only [srLoop, hidx]
    cases happ : idx.app sq with
    | none =>
      apply ih hvr
      obtain ⟨p, hp, idx2, hidx2, happ2⟩ := he
      rcases List.mem_cons.mp hp with h | h
      · subst h
        rw [hidx] at hidx2
        injection hidx2 with h2
        subst h2
        rw [happ] at happ2
        cases happ2
      · exact ⟨p, h, idx2, hidx2, happ2⟩
    | some r =>
      cases r with
      | nil => rfl
      | cons x xs =>
        have hrest : hasEmptyRes cat rest := by
          obtain ⟨p, hp, idx2, hidx2, happ2⟩ := he
          rcases List.mem_cons.mp hp with h | h
          · subst h
            rw [hidx] at hidx2
            injection hidx2 with h2
            subst h2
            rw [happ] at happ2
            injection happ2 with h3
            cases h3
          · exact ⟨p, h, idx2, hidx2, happ2⟩
        rw [ih hvr hrest]
        rfl

/-- When every name is registered and no sub-query result is empty, the
per-index loop collects exactly the `(len(r), r)` pairs in query
order. -/
theorem srLoop_inr (cat : Catalog) :
    ∀ (query : List (String × Int)), validNames cat query →
      ¬ hasEmptyRes cat query →
      srLoop cat query = .ok (.inr (collected cat query)) := by
  intro query
  induction query with
  | nil => intro _ _; rfl
  | cons hd rest ih =>
    obtain ⟨nm, sq⟩ := hd
    intro hv he
    have hhead := hv (nm, sq) (List.mem_cons_self _ _)
    obtain ⟨idx, hidx⟩ := Option.isSome_iff_exists.mp hhead
    have hvr : validNames cat rest := fun p hp => hv p (List.mem_cons_of_mem _ hp)
    have her : ¬ hasEmptyRes cat rest := by
      intro ⟨p, hp, w⟩
      exact he ⟨p, List.mem_cons_of_mem _ hp, w⟩
    simp only [srLoop, hidx]
    cases happ : idx.app sq with
    | none =>
      rw [ih hvr her]
      simp only [collected, List.filterMap_cons, hidx, happ, Option.map_none']
    | some r =>
      cases r with
      | nil => exact absurd ⟨(nm, sq), List.mem_cons_self _ _, idx, hidx, happ⟩ he
      | cons x xs =>
        rw [ih hvr her]
        simp only [collected, List.filterMap_cons, hidx, happ, Option.map_some']
        rfl

/-- The weighted-intersection fold filters the seed set by membership in
every other collected set. -/
theorem weightedFold_eq_filter :
    ∀ (rs : List (List Int)) (r0 : List Int),
      weightedFold r0 rs = r0.filter (fun x => rs.all (fun r => decide (x ∈ r))) := by
  intro rs
  induction rs with
  | nil => intro r0; simp [weightedFold]
  | cons r rest ih =>
    intro r0
    rw [show weightedFold r0 (r :: rest) = weightedFold (interSet r0 r) rest from rfl,
        ih, interSet, List.filter_filter]
    congr 1
    funext x
    simp [Bool.and_comm]

/-- Membership in the intersected result: an id survives iff it is in
every collected set. -/
theorem weightedFold_mem (c : List (Nat × List Int)) (p0 : Nat × List Int)
    (rest : List (Nat × List Int))
    (hps : pySorted (fun a b => decide (a.1 ≤ b.1)) c = p0 :: rest) (x : Int) :
    x ∈ weightedFold p0.2 (rest.map (fun p => p.2)) ↔ ∀ p ∈ c, x ∈ p.2 := by
  rw [weightedFold_eq_filter, List.mem_filter]
  have hperm : (p0 :: rest).Perm c := by
    rw [← hps]
    exact pySorted_perm _ c
  constructor
  · rintro ⟨hx0, hall⟩ p hp
    rcases List.mem_cons.mp (hperm.mem_iff.mpr hp) with h | h
    · rw [h]
      exact hx0
    · have := List.all_eq_true.mp hall p.2 (List.mem_map_of_mem _ h)
      exact of_decide_eq_true this
  · intro hall
    refine ⟨hall p0 (hperm.mem_iff.mp (List.mem_cons_self _ _)), ?_⟩
    rw [List.all_eq_true]
    intro r hr
    rw [List.mem_map] at hr
    obtain ⟨p, hp, hpr⟩ := hr
    have hpc : p ∈ c := hperm.mem_iff.mp (List.mem_cons_of_mem _ hp)
    exact decide_eq_true (hpr ▸ hall p hpc)

/-- Under `SortedApps`, every collected set is sorted. -/
theorem collected_sorted (cat : Catalog) (query : List (String × Int))
    (hs : SortedApps cat) :
    ∀ p ∈ collected cat query, p.2.Pairwise (fun a b : Int => a < b) := by
  intro p hp
  unfold collected at hp
  rw [List.mem_filterMap] at hp
  obtain ⟨q, hq, hmap⟩ := hp
  cases hget : aget cat q.1 with
  | none => simp only [hget] at hmap; exact Option.noConfusion hmap
  | some idx =>
    simp only [hget] at hmap
    cases happ : idx.app q.2 with
    | none => simp only [happ, Option.map_none'] at hmap; exact Option.noConfusion hmap
    | some r =>
      simp only [happ, Option.map_some'] at hmap
      have hmem : (q.1, idx) ∈ cat := aget_mem hget
      have hsr := hs (q.1, idx) hmem q.2 r happ
      injection hmap with h
      rw [← h]
      exact hsr

/-- Two strictly sorted integer lists with the same members are
equal. -/
theorem strict_eq_of_mem_iff (L L' : List Int)
    (hL : L.Pairwise (fun a b : Int => a < b))
    (hL' : L'.Pairwise (fun a b : Int => a < b))
    (hmem : ∀ x, x ∈ L ↔ x ∈ L') : L = L' := by
  have h1 : L.Nodup := @strict_nodup Int id L hL
  have h2 : L'.Nodup := @strict_nodup Int id L' hL'
  have hp : L.Perm L' := (List.perm_ext_iff_of_nodup h1 h2).mpr hmem
  exact eq_of_perm_of_strict (fun a b : Int => a < b)
    (fun a b hab hba => by omega) L L' hp hL hL'

/-- C4 (amended): when every sub-query key names a registered index and
every index's `apply` yields sorted IF sets, `Catalog.searchResults`
returns the same (count, result) for every ordering of the sub-query
keys; selectivity ordering and the short-circuit on an empty per-index
result change only which indexes are evaluated, never the returned
value. -/
theorem c4_query_order_independence (cat : Catalog)
    (query query' : List (String × Int)) (sortIndex : Option String)
    (reverse : Bool) (limit : Option Int)
    (hperm : query.Perm query')
    (hv : validNames cat query)
    (hs : SortedApps cat) :
    searchResults cat query sortIndex reverse limit =
      searchResults cat query' sortIndex reverse limit := by
  have hv' : validNames cat query' := fun p hp => hv p (hperm.mem_iff.mpr hp)
  by_cases he : hasEmptyRes cat query
  · have he' : hasEmptyRes cat query' := by
      obtain ⟨p, hp, w⟩ := he
      exact ⟨p, hperm.mem_iff.mp hp, w⟩
    unfold searchResults
    rw [srLoop_inl cat query hv he, srLoop_inl cat query' hv' he']
  · have he' : ¬ hasEmptyRes cat query' := by
      intro ⟨p, hp, w⟩
      exact he ⟨p, hperm.mem_iff.mpr hp, w⟩
    unfold searchResults
    rw [srLoop_inr cat query hv he, srLoop_inr cat query' hv' he']
    have hcperm : (collected cat query).Perm (collected cat query') :=
      hperm.filterMap _
    cases hc : collected cat query with
    | nil =>
      rw [hc] at hcperm
      have hnil : collected cat query' = [] :=
        List.length_eq_zero.mp (by simpa using hcperm.length_eq.symm)
      rw [hnil]
    | cons chd ctl =>
      rw [hc] at hcperm
      cases hc' : collected cat query' with
      | nil =>
        rw [hc'] at hcperm
        have hlen := hcperm.length_eq
        simp at hlen
      | cons chd' ctl' =>
        rw [hc'] at hcperm
        simp only [List.isEmpty_cons, Bool.false_eq_true, if_false]
        cases hps : pySorted (fun a b => decide (a.1 ≤ b.1)) (chd :: ctl) with
        | nil =>
          have hlen := pySorted_length (fun a b => decide (a.1 ≤ b.1)) (chd :: ctl)
          rw [hps] at hlen
          simp at hlen
        | cons p0 rest =>
          cases hps' : pySorted (fun a b => decide (a.1 ≤ b.1)) (chd' :: ctl') with
          | nil =>
            have hlen := pySorted_length (fun a b => decide (a.1 ≤ b.1)) (chd' :: ctl')
            rw [hps'] at hlen
            simp at hlen
          | cons p0' rest' =>
            have hsorted : ∀ p ∈ chd :: ctl, p.2.Pairwise (fun a b : Int => a < b) := by
              intro p hp
              exact collected_sorted cat query hs p (hc ▸ hp)
            have hsorted' : ∀ p ∈ chd' :: ctl', p.2.Pairwise (fun a b : Int => a < b) := by
              intro p hp
              exact collected_sorted cat query' hs p (hc' ▸ hp)
            have hp0 : p0 ∈ chd :: ctl := by
              have := pySorted_mem (fun a b => decide (a.1 ≤ b.1)) (chd :: ctl) p0
              rw [hps] at this
              exact this.mp (List.mem_cons_self _ _)
            have hp0' : p0' ∈ chd' :: ctl' := by
              have := pySorted_mem (fun a b => decide (a.1 ≤ b.1)) (chd' :: ctl') p0'
              rw [hps'] at this
              exact this.mp (List.mem_cons_self _ _)
            have hres : weightedFold p0.2 (rest.map (fun p => p.2)) =
                weightedFold p0'.2 (rest'.map (fun p => p.2)) := by
              apply strict_eq_of_mem_iff
              · rw [weightedFold_eq_filter]
                exact (hsorted p0 hp0).sublist (List.filter_sublist _)
              · rw [weightedFold_eq_filter]
                exact (hsorted' p0' hp0').sublist (List.filter_sublist _)
              · intro x
                rw [weightedFold_mem (chd :: ctl) p0 rest hps x,
                    weightedFold_mem (chd' :: ctl') p0' rest' hps' x]
                constructor
                · intro h p hp
                  exact h p (hcperm.mem_iff.mpr hp)
                · intro h p hp
                  exact h p (hcperm.mem_iff.mp hp)
            obtain ⟨n0, r0⟩ := p0
            obtain ⟨n0', r0'⟩ := p0'
            dsimp only at hres ⊢
            rw [hres]

/-- Counterexample to C4 as stated: with only the index `a` registered
(whose `apply` yields the empty set), the query `{a: 0, zz: 0}` returns
`(0, [])` when `a` is evaluated first (the short-circuit fires before
`zz` is looked up) but raises `ValueError: No such index zz` when `zz`
is evaluated first — the returned value depends on sub-query key
order. -/
theorem c4_counterexample :
    searchResults [("a", qidxE)] [("a", 0), ("zz", 0)] none false none =
      .ok (0, .set []) ∧
    searchResults [("a", qidxE)] [("zz", 0), ("a", 0)] none false none =
      .error "ValueError: No such index zz" ∧
    [(("a", 0) : String × Int), ("zz", 0)].Perm [("zz", 0), ("a", 0)] :=
  ⟨by rfl, by rfl, List.Perm.swap ("zz", 0) ("a", 0) []⟩

/-- Witness for C4's amended statement: a two-index catalog queried in
both orders returns the same `(2, {2, 3})`. -/
theorem c4_witness :
    validNames [("a", qidxA), ("b", qidxB)] [("a", (0 : Int)), ("b", 1)] ∧
    (searchResults [("a", qidxA), ("b", qidxB)] [("a", 0), ("b", 1)] none false none =
       searchResults [("a", qidxA), ("b", qidxB)] [("b", 1), ("a", 0)] none false none) ∧
    searchResults [("a", qidxA), ("b", qidxB)] [("a", 0), ("b", 1)] none false none =
      .ok (2, .set [2, 3]) :=
  ⟨by decide,
   c4_query_order_independence [("a", qidxA), ("b", qidxB)]
     [("a", 0), ("b", 1)] [("b", 1), ("a", 0)] none false none
     (List.Perm.swap ("b", 1) ("a", 0) [])
     (by decide)
     (by
       intro p hp q r happ
       rcases List.mem_cons.mp hp with h | h
       · subst h
         simp only [qidxA] at happ
         injection happ with h2
         rw [← h2]
         decide
       · rcases List.mem_cons.mp h with h | h
         · subst h
           simp only [qidxB] at happ
           injection happ with h2
           rw [← h2]
           decide
         · exact absurd h (List.not_mem_nil p)),
   by rfl⟩

end RCat
